import Mathlib

/-!
Shallow embedding of the ELF → PE32+ linker-loader core of the pixie
repository (package `grub`, with helpers from `internal/align` and
`internal/efipe`), together with theorems about its section planner,
symbol resolver, relocation engine and module dependency resolver.

Go unsigned integers are modelled as `Nat` with explicit reduction
`% 2^64` (resp. `% 2^32`) wherever the Go code can wrap; Go byte slices
are `List Nat`; fallible Go functions returning `(T, error)` are
modelled as `Except GrubError T`.
-/

namespace Pixie

/-- `2^64`, the modulus of Go `uint64` arithmetic. -/
def U64 : Nat := 18446744073709551616

/-- `2^32`, the modulus of Go `uint32` arithmetic. -/
def U32 : Nat := 4294967296

/-- Reduction of a `Nat` to a Go `uint64` value. -/
def u64 (n : Nat) : Nat := n % U64

/-- Go `uint64` subtraction `a - b` (two's complement wraparound), for
`a b < 2^64`. -/
def sub64 (a b : Nat) : Nat := (U64 + a - b) % U64

/-- Two's complement bit pattern of a Go `int64`, as a `Nat` below `2^64`. -/
def toU64 (i : Int) : Nat := (i % (U64 : Int)).toNat

/-- Signed value of a 64-bit two's complement bit pattern (Go `int64(p)`
for `p : uint64`). -/
def toInt64 (p : Nat) : Int :=
  if p < 9223372036854775808 then (p : Int) else (p : Int) - (U64 : Int)

/-! ELF constants, with the values of Go's `debug/elf` package. -/

def SHT_NOBITS : Nat := 8
def SHT_REL : Nat := 9
def SHT_RELA : Nat := 4
def SHF_ALLOC : Nat := 2
def SHF_EXECINSTR : Nat := 4
def SHN_UNDEF : Nat := 0
def SHN_ABS : Nat := 65521
def EM_X86_64 : Nat := 62

def R_X86_64_NONE : Nat := 0
def R_X86_64_64 : Nat := 1
def R_X86_64_PC32 : Nat := 2
def R_X86_64_PLT32 : Nat := 4

/-- `align.Address` from `internal/align/align.go`, instantiated at
`uint64`: `((addr + alignment - 1) / alignment) * alignment`, returning
`addr` when `alignment = 0`.  The sum `addr + alignment - 1` wraps at
`2^64` exactly as the Go `uint64` addition does; the quotient-times-
alignment product cannot exceed the (reduced) sum, so it needs no
further reduction. -/
def alignAddress (addr alignment : Nat) : Nat :=
  if alignment = 0 then addr
  else u64 (addr + alignment - 1) / alignment * alignment

/-- The fields of Go `elf.Section` (header fields plus the bytes its
`Open` reader yields, stored here as `data`), extended with the two
fields the `grub` package's `elfSection` wrapper adds: the section-table
`index` and the planner-assigned `addrInFile`.
(`relocationTypToFunc` and `relocations` of the wrapper are threaded
explicitly through the functions below instead of being stored.) -/
structure ElfSection where
  name : String
  typ : Nat
  flags : Nat
  addralign : Nat
  size : Nat
  entsize : Nat
  info : Nat
  data : List Nat
  index : Nat := 0
  addrInFile : Nat := 0
deriving Repr, DecidableEq

/-- `section.Flags & elf.SHF_EXECINSTR > 0` from `layoutVirtualSections`. -/
def hasExecInstr (s : ElfSection) : Bool := 0 < s.flags &&& SHF_EXECINSTR

/-- `section.Flags & elf.SHF_ALLOC > 0` from `layoutVirtualSections`. -/
def hasAlloc (s : ElfSection) : Bool := 0 < s.flags &&& SHF_ALLOC

/-- `virtualSectionType` from sections.go. -/
inductive VirtualSectionType
  | text
  | data
  | bss
deriving Repr, DecidableEq

/-- `virtualSection` from sections.go. -/
structure VirtualSection where
  offset : Nat
  size : Nat
  kind : VirtualSectionType
  realSections : List ElfSection
deriving Repr, DecidableEq

/-- The classifying `switch` in `layoutVirtualSections`: partition the
(index-annotated) input sections into text / data / bss buckets, in
section-table order; anything else is excluded (and only logged). -/
def sectionBuckets : List ElfSection → List ElfSection × List ElfSection × List ElfSection
  | [] => ([], [], [])
  | s :: rest =>
    let (t, d, b) := sectionBuckets rest
    if hasExecInstr s && hasAlloc s then (s :: t, d, b)
    else if !hasExecInstr s && hasAlloc s then
      if s.typ = SHT_NOBITS then (t, d, s :: b) else (t, s :: d, b)
    else (t, d, b)

/-- The per-section placement loop of `createVirtualSection`: walk the
bucket, aligning to each section's `Addralign` when nonzero, assigning
`addrInFile`, and advancing by the section's size (Go `uint64`
addition). Returns the placed sections and the final address. -/
def placeReal : Nat → List ElfSection → List ElfSection × Nat
  | addr, [] => ([], addr)
  | addr, s :: rest =>
    let addr1 := if 0 < s.addralign then alignAddress addr s.addralign else addr
    let (others, finalAddr) := placeReal (u64 (addr1 + s.size)) rest
    ({ s with addrInFile := addr1 } :: others, finalAddr)

/-- `createVirtualSection` from sections.go (part_002 revision): align
the start and the end of the virtual section to `alignment`, place the
real sections in between. -/
def createVirtualSection (addr : Nat) (source : List ElfSection) (alignment : Nat)
    (kind : VirtualSectionType) : VirtualSection × Nat :=
  let addr0 := alignAddress addr alignment
  let (placed, addr1) := placeReal addr0 source
  let addr2 := alignAddress addr1 alignment
  ({ offset := addr0, size := sub64 addr2 addr0, kind := kind, realSections := placed }, addr2)

/-- The section list with each element's `index` field set to its
position, as the `for sectionIndex, section := range f.Sections` loop
does. -/
def indexedSections (sections : List ElfSection) : List ElfSection :=
  sections.enum.map (fun p => { p.2 with index := p.1 })

/-- `layoutVirtualSections` from sections.go (part_002 revision): bucket
the input sections, append the bss bucket to the data bucket, and emit a
TEXT virtual section followed by a DATA virtual section, starting at
`headerSize`. -/
def layoutVirtualSections (sections : List ElfSection) (headerSize alignment : Nat) :
    List VirtualSection :=
  let (textSections, dataSections, bssSections) := sectionBuckets (indexedSections sections)
  let dataAll := dataSections ++ bssSections
  let (vtext, addr1) := createVirtualSection headerSize textSections alignment .text
  let (vdata, _) := createVirtualSection addr1 dataAll alignment .data
  [vtext, vdata]

/-! ### Lemmas about the planner, and claim C1 -/

/-- Forget the planner-assigned address of a section (used to compare
placed sections with the input sections they came from). -/
def eraseAddr (s : ElfSection) : ElfSection := { s with addrInFile := 0 }

/-- The predicate selecting the text bucket. -/
def keepText (s : ElfSection) : Bool := hasExecInstr s && hasAlloc s

/-- The predicate selecting the data bucket. -/
def keepData (s : ElfSection) : Bool :=
  !hasExecInstr s && hasAlloc s && !(s.typ = SHT_NOBITS : Bool)

/-- The predicate selecting the bss bucket. -/
def keepBss (s : ElfSection) : Bool :=
  !hasExecInstr s && hasAlloc s && (s.typ = SHT_NOBITS : Bool)

theorem sectionBuckets_eq_filters (l : List ElfSection) :
    sectionBuckets l = (l.filter keepText, l.filter keepData, l.filter keepBss) := by
  induction l with
  | nil => rfl
  | cons s rest ih =>
    simp only [sectionBuckets, ih, List.filter, keepText, keepData, keepBss]
    by_cases h1 : hasExecInstr s <;> by_cases h2 : hasAlloc s <;>
      by_cases h3 : s.typ = SHT_NOBITS <;> simp [h1, h2, h3]

theorem placeReal_map_eraseAddr (addr : Nat) (l : List ElfSection) :
    (placeReal addr l).1.map eraseAddr = l.map eraseAddr := by
  induction l generalizing addr with
  | nil => rfl
  | cons s rest ih => simp [placeReal, eraseAddr, ih]

theorem createVirtualSection_kind (addr : Nat) (source : List ElfSection) (alignment : Nat)
    (kind : VirtualSectionType) :
    (createVirtualSection addr source alignment kind).1.kind = kind := rfl

theorem createVirtualSection_realSections (addr : Nat) (source : List ElfSection)
    (alignment : Nat) (kind : VirtualSectionType) :
    (createVirtualSection addr source alignment kind).1.realSections.map eraseAddr =
      source.map eraseAddr := by
  simp [createVirtualSection, placeReal_map_eraseAddr]

/-- C1: For every parsed ELF relocatable, the section planner
(`layoutVirtualSections`) emits exactly two virtual sections: first a
TEXT virtual section containing, in ELF section-table order, every input
section that is both allocatable and executable, and then a DATA virtual
section containing every allocatable non-executable section of type
other than NOBITS, followed by every allocatable (non-executable) NOBITS
section; every other input section is excluded from the layout (the
filters below are exhaustive over the kept sections, so a section
matching none of them appears in neither virtual section). -/
theorem layout_emits_text_then_data (sections : List ElfSection) (headerSize alignment : Nat) :
    ∃ vtext vdata,
      layoutVirtualSections sections headerSize alignment = [vtext, vdata] ∧
      vtext.kind = .text ∧ vdata.kind = .data ∧
      vtext.realSections.map eraseAddr =
        ((indexedSections sections).filter keepText).map eraseAddr ∧
      vdata.realSections.map eraseAddr =
        ((indexedSections sections).filter keepData).map eraseAddr ++
          ((indexedSections sections).filter keepBss).map eraseAddr := by
  refine ⟨_, _, rfl, ?_, ?_, ?_, ?_⟩
  · exact createVirtualSection_kind ..
  · exact createVirtualSection_kind ..
  · simp [layoutVirtualSections, sectionBuckets_eq_filters, createVirtualSection,
      placeReal_map_eraseAddr]
  · simp [layoutVirtualSections, sectionBuckets_eq_filters, createVirtualSection,
      placeReal_map_eraseAddr]

/-! ### Symbols and the symbol resolver -/

/-- The error values of the `grub` package (each Go `errors.New` /
`fmt.Errorf` failure is mapped to one constructor; wrapping context
strings are dropped, the identity of the error is kept). -/
inductive GrubError
  | bssSymbolButNoBSS
  | unrecognizedSymbol (name : String)
  | unknownSectionIndex (index : Nat) (name : String)
  | unsupportedELFMachineType
  | badSymbolIndex
  | unsupportedRelocation
  | relocationOutOfBounds
  | invalidRelocation
  | readEntryFailed
  | noEntrypoint
  | unrecognizedModule (name : String)
  | invalidDependencyListFormat
deriving Repr, DecidableEq

/-- The fields of Go `elf.Symbol` used by the `grub` package. -/
structure ElfSymbol where
  name : String
  sectionIdx : Nat
  value : Nat
deriving Repr, DecidableEq

/-- The zero `elf.Symbol{}` appended at index 0 by `relocateSymbols`:
empty name, `SHN_UNDEF` section, zero value. -/
def ElfSymbol.zero : ElfSymbol := { name := "", sectionIdx := SHN_UNDEF, value := 0 }

/-- The ELF file's own symbol table: Go's `elf.File.Symbols` omits the
null symbol the file stores at index 0, so the file's table is that null
symbol followed by the symbols Go returns. -/
def fileSymbolTable (goSymbols : List ElfSymbol) : List ElfSymbol :=
  ElfSymbol.zero :: goSymbols

/-- The bss-start scan inside `relocateSymbols` (part_002 revision): the
`if section.Type == elf.SHT_NOBITS && bssStart == 0` update, folded over
one virtual section's real sections. -/
def scanBss (b : Nat) (ss : List ElfSection) : Nat :=
  ss.foldl (fun b s => if s.typ = SHT_NOBITS ∧ b = 0 then s.addrInFile else b) b

/-- `bssStart` as computed by the double loop of `relocateSymbols`. -/
def bssStartOf (vss : List VirtualSection) : Nat :=
  vss.foldl (fun b v => scanBss b v.realSections) 0

/-- `end` as computed by `relocateSymbols`: `virt.offset + virt.size` of
the last virtual section visited (Go `uint64` addition), zero when there
are none. -/
def endOf (vss : List VirtualSection) : Nat :=
  vss.foldl (fun _ v => u64 (v.offset + v.size)) 0

/-- The real sections of a layout, in layout order (virtual sections in
order, each one's real sections in order). -/
def allRealSections (vss : List VirtualSection) : List ElfSection :=
  vss.foldr (fun v acc => v.realSections ++ acc) []

/-- The `sectionsByIndex` Go map of `relocateSymbols` and
`relocateAddresses`: indices are inserted in layout order and a later
insertion overwrites an earlier one, so a lookup returns the last
section with the given index. -/
def lookupSectionByIndex (vss : List VirtualSection) (i : Nat) : Option ElfSection :=
  (allRealSections vss).reverse.find? (fun s => s.index = i)

def symbBssStart : String := "__bss_start"
def symbEnd : String := "end"
def symbStart : String := "_start"

/-- The per-symbol body of the `for _, symb := range symbs` loop in
`relocateSymbols` (part_002 revision). -/
def relocateSymbol (bssStart endAddr : Nat) (lookup : Nat → Option ElfSection)
    (symb : ElfSymbol) : Except GrubError ElfSymbol :=
  if symb.sectionIdx = SHN_UNDEF then
    if symb.name = symbBssStart then
      if bssStart = 0 then .error .bssSymbolButNoBSS
      else .ok { symb with value := bssStart }
    else if symb.name = symbEnd then .ok { symb with value := endAddr }
    else .error (.unrecognizedSymbol symb.name)
  else if symb.sectionIdx = SHN_ABS then .ok symb
  else
    match lookup symb.sectionIdx with
    | none => .error (.unknownSectionIndex symb.sectionIdx symb.name)
    | some sec => .ok { symb with value := u64 (sec.addrInFile + symb.value) }

/-- The symbol loop of `relocateSymbols`: process the symbols in order,
aborting at the first failure, exactly as the Go loop returns on the
first error. -/
def processSymbols (f : ElfSymbol → Except GrubError ElfSymbol) :
    List ElfSymbol → Except GrubError (List ElfSymbol)
  | [] => .ok []
  | s :: rest =>
    match f s with
    | .error e => .error e
    | .ok s' =>
      match processSymbols f rest with
      | .error e => .error e
      | .ok rest' => .ok (s' :: rest')

/-- `relocateSymbols` from sections.go (part_002 revision): compute
`bssStart` and `end` from the planned layout, prepend the zero
"undefined" symbol that `elf.File.Symbols` omitted, and rewrite every
symbol value to image coordinates. -/
def relocateSymbols (goSymbols : List ElfSymbol) (vss : List VirtualSection) :
    Except GrubError (List ElfSymbol) :=
  match processSymbols
      (relocateSymbol (bssStartOf vss) (endOf vss) (lookupSectionByIndex vss)) goSymbols with
  | .error e => .error e
  | .ok rest => .ok (ElfSymbol.zero :: rest)

theorem processSymbols_ok_forall₂ {f : ElfSymbol → Except GrubError ElfSymbol}
    {l out : List ElfSymbol} (h : processSymbols f l = .ok out) :
    List.Forall₂ (fun a b => f a = .ok b) l out := by
  induction l generalizing out with
  | nil =>
    simp only [processSymbols] at h
    cases h
    exact List.Forall₂.nil
  | cons s rest ih =>
    simp only [processSymbols] at h
    cases hf : f s with
    | error e => rw [hf] at h; cases h
    | ok s' =>
      rw [hf] at h
      cases hr : processSymbols f rest with
      | error e => rw [hr] at h; cases h
      | ok rest' =>
        rw [hr] at h
        cases h
        exact List.Forall₂.cons hf (ih hr)

/-- `relocateSymbol` never changes a symbol's name or section index. -/
theorem relocateSymbol_preserves_name_section {bssStart endAddr : Nat}
    {lookup : Nat → Option ElfSection} {s s' : ElfSymbol}
    (h : relocateSymbol bssStart endAddr lookup s = .ok s') :
    s'.name = s.name ∧ s'.sectionIdx = s.sectionIdx := by
  unfold relocateSymbol at h
  split at h
  · split at h
    · split at h
      · cases h
      · cases h; exact ⟨rfl, rfl⟩
    · split at h
      · cases h; exact ⟨rfl, rfl⟩
      · cases h
  · split at h
    · cases h; exact ⟨rfl, rfl⟩
    · split at h
      · cases h
      · cases h; exact ⟨rfl, rfl⟩

theorem relocateSymbols_ok_names {goSymbols : List ElfSymbol} {vss : List VirtualSection}
    {out : List ElfSymbol} (h : relocateSymbols goSymbols vss = .ok out) :
    out.length = (fileSymbolTable goSymbols).length ∧
    out.head? = some ElfSymbol.zero ∧
    ∀ i : Nat, (out.get? i).map (fun s => (s.name, s.sectionIdx)) =
      ((fileSymbolTable goSymbols).get? i).map (fun s => (s.name, s.sectionIdx)) := by
  unfold relocateSymbols at h
  cases hp : processSymbols
      (relocateSymbol (bssStartOf vss) (endOf vss) (lookupSectionByIndex vss)) goSymbols with
  | error e => rw [hp] at h; cases h
  | ok rest =>
    rw [hp] at h
    cases h
    have hf := processSymbols_ok_forall₂ hp
    have hlen : rest.length = goSymbols.length := (List.Forall₂.length_eq hf).symm
    refine ⟨by simp [fileSymbolTable, hlen], rfl, ?_⟩
    intro i
    cases i with
    | zero => rfl
    | succ j =>
      simp only [fileSymbolTable, List.get?_cons_succ]
      rcases Nat.lt_or_ge j goSymbols.length with hj | hj
      · have hj' : j < rest.length := hlen ▸ hj
        rw [List.get?_eq_get hj', List.get?_eq_get hj]
        have := List.forall₂_iff_get.mp hf
        have hstep := this.2 j hj hj'
        have hns := relocateSymbol_preserves_name_section hstep
        simp only [Option.map_some, List.get_eq_getElem] at hns ⊢
        simp [hns.1, hns.2]
      · rw [List.get?_eq_none.mpr hj, List.get?_eq_none.mpr (hlen ▸ hj)]

/-! ### The relocation engine (reloc.go, first revision) -/

/-- The `relocation` record of reloc.go.  `addend` is a Go `int64`;
`offset` is relative to the start of the target section, `fileOffset`
relative to the start of the image file. -/
structure RelocationEntry where
  typ : Nat
  addend : Int
  offset : Nat
  fileOffset : Nat
  symbValue : Nat
  symbIndex : Nat
deriving Repr, DecidableEq

/-- `efipe.Relocation`: an unresolved relocation destined for the PE
base-relocation table. -/
structure PERelocation where
  kind : Nat
  fileOffset : Nat
deriving Repr, DecidableEq

/-- `efipe.ImageRelBasedDir64`. -/
def imageRelBasedDir64 : Nat := 10

/-- `relocationInfo` from reloc.go: split a `Rel64`/`Rela64` `info`
field into `sym = uint32(info >> 32)` and `typ = uint32(info &
0xFFFFFFFF)`. -/
def relocationInfo (info : Nat) : Nat × Nat :=
  (u64 info / U32, info % U32)

/-- Little-endian decoding of a byte list (first byte least
significant). -/
def leDecode : List Nat → Nat
  | [] => 0
  | b :: rest => b + 256 * leDecode rest

/-- Little-endian encoding of a value into `w` bytes. -/
def leEncode : Nat → Nat → List Nat
  | 0, _ => []
  | w + 1, v => v % 256 :: leEncode w (v / 256)

/-- `relocateX86_64_64` from reloc.go: `addr += int64(rel.symbValue) +
rel.addend` on the 64-bit two's complement bit pattern (Go `int64`
addition wraps exactly like `uint64` addition of the patterns), and an
unresolved `Dir64` PE relocation at `rel.fileOffset` is produced. -/
def relocateX86_64_64 (addr : Nat) (rel : RelocationEntry) : Nat × Option PERelocation :=
  ((addr + rel.symbValue + toU64 rel.addend) % U64,
    some { kind := imageRelBasedDir64, fileOffset := rel.fileOffset })

/-- `relocateX86_64_PC32` from reloc.go: `addr + int32(rel.addend &
0xFFFFFFFF) + int32(rel.symbValue & 0xFFFFFFFF) - int32(rel.fileOffset &
0xFFFFFFFF)` on the 32-bit two's complement bit pattern (`x &
0xFFFFFFFF = x % 2^32`; Go `int32` addition and subtraction wrap modulo
`2^32`); no unresolved PE relocation is produced. -/
def relocateX86_64_PC32 (addr : Nat) (rel : RelocationEntry) : Nat × Option PERelocation :=
  (((( addr : Int) + ((toU64 rel.addend % U32 : Nat) : Int) + ((rel.symbValue % U32 : Nat) : Int)
      - ((rel.fileOffset % U32 : Nat) : Int)) % (U32 : Int)).toNat,
    none)

/-- The three relocation functions reachable through
`relocationFuncsX86_64`: `relocateNoop`, and the two instantiations of
the generic `relocateX86_64Adapter` (at `int64` for `R_X86_64_64` and at
`int32` for `R_X86_64_PC32` / `R_X86_64_PLT32`). -/
inductive X86RelocFunc
  | noop
  | adapter64
  | adapter32
deriving Repr, DecidableEq

/-- The `relocationFuncsX86_64` dispatch map from reloc.go.
`R_X86_64_PLT32` maps to the same `PC32` relocator (statically linked,
so PLT32 collapses to PC32). -/
def relocationFuncsX86_64 (typ : Nat) : Option X86RelocFunc :=
  if typ = R_X86_64_NONE then some .noop
  else if typ = R_X86_64_64 then some .adapter64
  else if typ = R_X86_64_PC32 then some .adapter32
  else if typ = R_X86_64_PLT32 then some .adapter32
  else none

/-- Application of a relocation function to the byte slice
`out = data[rel.offset:]`, as `relocateX86_64Adapter` does: unpack the
little-endian operand (`struc` fails when fewer than the operand's bytes
remain), transform it, pack it back over the front of the slice.
`relocateNoop` leaves the slice untouched. -/
def applyRelocFunc : X86RelocFunc → List Nat → RelocationEntry →
    Except GrubError (List Nat × Option PERelocation)
  | .noop, out, _ => .ok (out, none)
  | .adapter64, out, rel =>
    if out.length < 8 then .error .invalidRelocation
    else
      let (v, u) := relocateX86_64_64 (leDecode (out.take 8)) rel
      .ok (leEncode 8 v ++ out.drop 8, u)
  | .adapter32, out, rel =>
    if out.length < 4 then .error .invalidRelocation
    else
      let (v, u) := relocateX86_64_PC32 (leDecode (out.take 4)) rel
      .ok (leEncode 4 v ++ out.drop 4, u)

/-- One iteration of the `for _, relocation := range section.relocations`
loop in `elfSection.processRelocations`: look the type up in the x86_64
dispatch table, fail with `RelocationOutOfBounds` when
`relocation.offset >= len(data)`, and otherwise run the relocation
function on `data[relocation.offset:]`. -/
def relocationStep (data : List Nat) (r : RelocationEntry) :
    Except GrubError (List Nat × Option PERelocation) :=
  match relocationFuncsX86_64 r.typ with
  | none => .error .unsupportedRelocation
  | some f =>
    if data.length ≤ r.offset then .error .relocationOutOfBounds
    else
      match applyRelocFunc f (data.drop r.offset) r with
      | .error e => .error e
      | .ok (out, urel) => .ok (data.take r.offset ++ out, urel)

/-- The loop of `elfSection.processRelocations`, with the data buffer
and the accumulated unresolved relocations threaded through. -/
def processRelocationsLoop : List Nat → List RelocationEntry → List PERelocation →
    Except GrubError (List Nat × List PERelocation)
  | data, [], acc => .ok (data, acc)
  | data, r :: rest, acc =>
    match relocationStep data r with
    | .error e => .error e
    | .ok (data', urel) => processRelocationsLoop data' rest (acc ++ urel.toList)

/-- `elfSection.processRelocations` from reloc.go: read the section's
bytes and apply every attached relocation in order, collecting the
unresolved PE relocations. -/
def processRelocations (data : List Nat) (rels : List RelocationEntry) :
    Except GrubError (List Nat × List PERelocation) :=
  processRelocationsLoop data rels []

/-- Construction of the attached `relocation` record inside
`relocateAddresses`: the file offset is `targetSection.addrInFile +
relOffset` (Go `uint64` addition) and the symbol value is read from the
relocated symbol table at the entry's symbol index (the index has been
bounds-checked just before). -/
def mkAttachedRelocation (target : ElfSection) (symbs : List ElfSymbol)
    (relSymb relTyp relOffset : Nat) (relAddend : Int) : RelocationEntry :=
  { typ := relTyp
    addend := relAddend
    offset := relOffset
    fileOffset := u64 (target.addrInFile + relOffset)
    symbValue := (symbs.getD relSymb ElfSymbol.zero).value
    symbIndex := relSymb }

/-! ### Claim C2 -/

/-- C2: The relocated symbol table produced during image construction
has a zero-valued "undefined" symbol at index 0, its length and the
name/section of every entry agree position-by-position with the ELF
file's own symbol table (the null symbol followed by the symbols
`elf.File.Symbols` returns), and the `symbValue` looked up by
`relocateAddresses` at the index `sym = info >> 32` of a relocation
entry is the value of the relocated symbol carrying the same name the
ELF file's own table stores at that index: ELF symbol numbering is
preserved. -/
theorem relocated_symbols_preserve_elf_numbering
    (goSymbols : List ElfSymbol) (vss : List VirtualSection) (out : List ElfSymbol)
    (h : relocateSymbols goSymbols vss = .ok out) :
    out.length = (fileSymbolTable goSymbols).length ∧
    out.head? = some ElfSymbol.zero ∧
    (∀ i : Nat, (out.get? i).map (fun s => (s.name, s.sectionIdx)) =
      ((fileSymbolTable goSymbols).get? i).map (fun s => (s.name, s.sectionIdx))) ∧
    (∀ (target : ElfSection) (info relOffset : Nat) (relAddend : Int),
      (relocationInfo info).1 < out.length →
      ∃ s, out.get? (relocationInfo info).1 = some s ∧
        ((fileSymbolTable goSymbols).get? (relocationInfo info).1).map
          (fun t => (t.name, t.sectionIdx)) = some (s.name, s.sectionIdx) ∧
        (mkAttachedRelocation target out (relocationInfo info).1 (relocationInfo info).2
          relOffset relAddend).symbValue = s.value) := by
  obtain ⟨hlen, hhead, hnames⟩ := relocateSymbols_ok_names h
  refine ⟨hlen, hhead, hnames, ?_⟩
  intro target info relOffset relAddend hsym
  have hs : out.get? (relocationInfo info).1 = some (out.get ⟨(relocationInfo info).1, hsym⟩) :=
    List.get?_eq_get hsym
  refine ⟨out.get ⟨(relocationInfo info).1, hsym⟩, hs, ?_, ?_⟩
  · rw [← hnames, hs, Option.map_some']
  · have hs' : out[(relocationInfo info).1]? = some (out.get ⟨(relocationInfo info).1, hsym⟩) := by
      rw [← List.get?_eq_getElem?]
      exact hs
    simp [mkAttachedRelocation, List.getD_eq_getElem?_getD, hs']

/-- Witness for C2: a concrete successful symbol relocation (one
`SHN_ABS` symbol, empty layout). -/
theorem relocated_symbols_preserve_elf_numbering_witness :
    relocateSymbols [{ name := "abs", sectionIdx := SHN_ABS, value := 7 }] [] =
      .ok [ElfSymbol.zero, { name := "abs", sectionIdx := SHN_ABS, value := 7 }] ∧
    ([ElfSymbol.zero, { name := "abs", sectionIdx := SHN_ABS, value := 7 }] :
      List ElfSymbol).head? = some ElfSymbol.zero := by
  have hok : relocateSymbols [{ name := "abs", sectionIdx := SHN_ABS, value := 7 }] [] =
      .ok [ElfSymbol.zero, { name := "abs", sectionIdx := SHN_ABS, value := 7 }] := by rfl
  exact ⟨hok, (relocated_symbols_preserve_elf_numbering _ _ _ hok).2.1⟩

/-! ### Lemmas about the relocation step -/

theorem leEncode_length (w v : Nat) : (leEncode w v).length = w := by
  induction w generalizing v with
  | zero => rfl
  | succ n ih => simp [leEncode, ih]

/-- Inversion of the x86_64 dispatch table. -/
theorem relocationFuncsX86_64_inv {typ : Nat} {f : X86RelocFunc}
    (h : relocationFuncsX86_64 typ = some f) :
    (typ = R_X86_64_NONE ∧ f = .noop) ∨ (typ = R_X86_64_64 ∧ f = .adapter64) ∨
    ((typ = R_X86_64_PC32 ∨ typ = R_X86_64_PLT32) ∧ f = .adapter32) := by
  unfold relocationFuncsX86_64 at h
  by_cases h0 : typ = R_X86_64_NONE
  · rw [if_pos h0] at h
    exact Or.inl ⟨h0, (Option.some_inj.mp h).symm⟩
  · rw [if_neg h0] at h
    by_cases h1 : typ = R_X86_64_64
    · rw [if_pos h1] at h
      exact Or.inr (Or.inl ⟨h1, (Option.some_inj.mp h).symm⟩)
    · rw [if_neg h1] at h
      by_cases h2 : typ = R_X86_64_PC32
      · rw [if_pos h2] at h
        exact Or.inr (Or.inr ⟨Or.inl h2, (Option.some_inj.mp h).symm⟩)
      · rw [if_neg h2] at h
        by_cases h3 : typ = R_X86_64_PLT32
        · rw [if_pos h3] at h
          exact Or.inr (Or.inr ⟨Or.inr h3, (Option.some_inj.mp h).symm⟩)
        · rw [if_neg h3] at h
          cases h

/-- The operand width of the x86_64 relocation types, as the spec's
table states it: 8 bytes for `R_X86_64_64`, 4 for `R_X86_64_PC32` and
`R_X86_64_PLT32`, 0 for `R_X86_64_NONE`. -/
def operandWidth (typ : Nat) : Nat :=
  if typ = R_X86_64_64 then 8
  else if typ = R_X86_64_PC32 ∨ typ = R_X86_64_PLT32 then 4
  else 0

/-- The condition under which one relocation entry is applied without
error to a buffer of `n` bytes: its type is in the dispatch table, its
offset passes the code's `offset >= len(data)` check, and its operand
fits (otherwise the little-endian unpack inside the adapter fails). -/
def entryOk (n : Nat) (r : RelocationEntry) : Prop :=
  (relocationFuncsX86_64 r.typ).isSome ∧ r.offset < n ∧ r.offset + operandWidth r.typ ≤ n

instance (n : Nat) (r : RelocationEntry) : Decidable (entryOk n r) := by
  unfold entryOk; infer_instance

theorem applyRelocFunc_noop (out : List Nat) (r : RelocationEntry) :
    applyRelocFunc .noop out r = .ok (out, none) := rfl

theorem applyRelocFunc_adapter64 (out : List Nat) (r : RelocationEntry)
    (h : ¬ out.length < 8) :
    applyRelocFunc .adapter64 out r =
      .ok (leEncode 8 ((leDecode (out.take 8) + r.symbValue + toU64 r.addend) % U64)
            ++ out.drop 8,
          some { kind := imageRelBasedDir64, fileOffset := r.fileOffset }) := by
  simp [applyRelocFunc, h, relocateX86_64_64]

theorem applyRelocFunc_adapter32 (out : List Nat) (r : RelocationEntry)
    (h : ¬ out.length < 4) :
    applyRelocFunc .adapter32 out r =
      .ok (leEncode 4 ((((leDecode (out.take 4) : Int) + ((toU64 r.addend % U32 : Nat) : Int)
              + ((r.symbValue % U32 : Nat) : Int) - ((r.fileOffset % U32 : Nat) : Int))
              % (U32 : Int)).toNat)
            ++ out.drop 4,
          none) := by
  simp [applyRelocFunc, h, relocateX86_64_PC32]

theorem applyRelocFunc_ne_oob (f : X86RelocFunc) (out : List Nat) (r : RelocationEntry) :
    applyRelocFunc f out r ≠ .error .relocationOutOfBounds := by
  cases f <;> simp only [applyRelocFunc]
  · simp
  · split <;> simp
  · split <;> simp

/-- Bytes the unpack step of each relocation function needs. -/
def widthReq : X86RelocFunc → Nat
  | .noop => 0
  | .adapter64 => 8
  | .adapter32 => 4

theorem applyRelocFunc_isOk_iff (f : X86RelocFunc) (out : List Nat) (r : RelocationEntry) :
    (∃ v, applyRelocFunc f out r = .ok v) ↔ widthReq f ≤ out.length := by
  cases f <;> simp only [applyRelocFunc, widthReq]
  · simp
  · split <;> rename_i h <;> simp <;> omega
  · split <;> rename_i h <;> simp <;> omega

/-- When the dispatch table resolves a type, the spec's operand width of
that type is the byte requirement of the resolved function. -/
theorem operandWidth_eq_widthReq {typ : Nat} {f : X86RelocFunc}
    (hf : relocationFuncsX86_64 typ = some f) : operandWidth typ = widthReq f := by
  rcases relocationFuncsX86_64_inv hf with ⟨ht, hfn⟩ | ⟨ht, hfn⟩ | ⟨ht, hfn⟩ <;> subst hfn
  · simp [operandWidth, widthReq, ht, R_X86_64_NONE, R_X86_64_64, R_X86_64_PC32, R_X86_64_PLT32]
  · simp [operandWidth, widthReq, ht]
  · rcases ht with ht | ht <;>
      simp [operandWidth, widthReq, ht, R_X86_64_64, R_X86_64_PC32, R_X86_64_PLT32]

/-- Unfolding of `relocationStep` once the dispatch has resolved. -/
theorem relocationStep_some {data : List Nat} {r : RelocationEntry} {f : X86RelocFunc}
    (hf : relocationFuncsX86_64 r.typ = some f) :
    relocationStep data r =
      (if data.length ≤ r.offset then .error .relocationOutOfBounds
       else
        match applyRelocFunc f (data.drop r.offset) r with
        | .error e => .error e
        | .ok (out, urel) => .ok (data.take r.offset ++ out, urel)) := by
  unfold relocationStep
  rw [hf]

/-- Unfolding of `relocationStep` when the dispatch fails. -/
theorem relocationStep_none {data : List Nat} {r : RelocationEntry}
    (hf : relocationFuncsX86_64 r.typ = none) :
    relocationStep data r = .error .unsupportedRelocation := by
  unfold relocationStep
  rw [hf]

/-- Inversion of a successful relocation step. -/
theorem relocationStep_ok_inv {data d' : List Nat} {r : RelocationEntry}
    {u : Option PERelocation} (h : relocationStep data r = .ok (d', u)) :
    ∃ f out, relocationFuncsX86_64 r.typ = some f ∧ ¬ data.length ≤ r.offset ∧
      applyRelocFunc f (data.drop r.offset) r = .ok (out, u) ∧
      d' = data.take r.offset ++ out := by
  cases hf : relocationFuncsX86_64 r.typ with
  | none => rw [relocationStep_none hf] at h; cases h
  | some f =>
    rw [relocationStep_some hf] at h
    by_cases hle : data.length ≤ r.offset
    · rw [if_pos hle] at h
      cases h
    · rw [if_neg hle] at h
      cases happ : applyRelocFunc f (data.drop r.offset) r with
      | error e => rw [happ] at h; cases h
      | ok v =>
        obtain ⟨out, u'⟩ := v
        rw [happ] at h
        injection h with h'
        rw [Prod.mk.injEq] at h'
        exact ⟨f, out, rfl, hle, h'.2 ▸ happ, h'.1.symm⟩

/-- Forward direction: assembling a successful relocation step. -/
theorem relocationStep_eq_ok {data out : List Nat} {r : RelocationEntry}
    {f : X86RelocFunc} {u : Option PERelocation}
    (hf : relocationFuncsX86_64 r.typ = some f) (hle : ¬ data.length ≤ r.offset)
    (happ : applyRelocFunc f (data.drop r.offset) r = .ok (out, u)) :
    relocationStep data r = .ok (data.take r.offset ++ out, u) := by
  rw [relocationStep_some hf, if_neg hle, happ]

theorem relocationStep_ok_iff (data : List Nat) (r : RelocationEntry) :
    (∃ v, relocationStep data r = .ok v) ↔ entryOk data.length r := by
  constructor
  · rintro ⟨⟨d', u⟩, h⟩
    obtain ⟨f, out, hf, hle, happ, -⟩ := relocationStep_ok_inv h
    have hok := (applyRelocFunc_isOk_iff f (data.drop r.offset) r).mp ⟨(out, u), happ⟩
    simp only [List.length_drop] at hok
    have hw := operandWidth_eq_widthReq hf
    exact ⟨by simp [hf], by omega, by omega⟩
  · rintro ⟨hsome, hlt, hwidth⟩
    obtain ⟨f, hf⟩ := Option.isSome_iff_exists.mp hsome
    have hle : ¬ data.length ≤ r.offset := by omega
    have hw := operandWidth_eq_widthReq hf
    have hfit : widthReq f ≤ (data.drop r.offset).length := by
      simp only [List.length_drop]
      omega
    obtain ⟨⟨out, u⟩, happ⟩ := (applyRelocFunc_isOk_iff f (data.drop r.offset) r).mpr hfit
    exact ⟨_, relocationStep_eq_ok hf hle happ⟩

theorem relocationStep_oob_iff (data : List Nat) (r : RelocationEntry) :
    relocationStep data r = .error .relocationOutOfBounds ↔
      (relocationFuncsX86_64 r.typ).isSome ∧ data.length ≤ r.offset := by
  cases hf : relocationFuncsX86_64 r.typ with
  | none =>
    rw [relocationStep_none hf]
    simp
  | some f =>
    rw [relocationStep_some hf]
    simp only [Option.isSome_some, true_and]
    by_cases hle : data.length ≤ r.offset
    · simp [hle]
    · simp only [hle, if_false]
      cases happ : applyRelocFunc f (data.drop r.offset) r with
      | error e =>
        simp only [iff_false]
        intro hcontra
        injection hcontra with h'
        exact applyRelocFunc_ne_oob f (data.drop r.offset) r (h' ▸ happ)
      | ok v =>
        obtain ⟨out, u'⟩ := v
        simp [hle]

theorem relocationStep_length {data d' : List Nat} {r : RelocationEntry}
    {u : Option PERelocation} (h : relocationStep data r = .ok (d', u)) :
    d'.length = data.length := by
  obtain ⟨f, out, hf, hle, happ, hd⟩ := relocationStep_ok_inv h
  subst hd
  have hout : out.length = (data.drop r.offset).length := by
    cases f <;> simp only [applyRelocFunc] at happ
    · injection happ with h'
      rw [Prod.mk.injEq] at h'
      rw [← h'.1]
    · split at happ
      · cases happ
      · rename_i hsz
        injection happ with h'
        rw [Prod.mk.injEq] at h'
        rw [← h'.1]
        simp only [List.length_append, leEncode_length, List.length_drop] at *
        omega
    · split at happ
      · cases happ
      · rename_i hsz
        injection happ with h'
        rw [Prod.mk.injEq] at h'
        rw [← h'.1]
        simp only [List.length_append, leEncode_length, List.length_drop] at *
        omega
  simp only [List.length_append, List.length_take, hout, List.length_drop]
  omega

/-- The unresolved PE relocation produced by one successful relocation
step: a `Dir64` record at the entry's file offset for `R_X86_64_64`,
nothing for every other type in the dispatch table. -/
theorem relocationStep_urel {data d' : List Nat} {r : RelocationEntry}
    {u : Option PERelocation} (h : relocationStep data r = .ok (d', u)) :
    u = if r.typ = R_X86_64_64 then
      some { kind := imageRelBasedDir64, fileOffset := r.fileOffset } else none := by
  obtain ⟨f, out, hf, hle, happ, -⟩ := relocationStep_ok_inv h
  rcases relocationFuncsX86_64_inv hf with ⟨ht, hfn⟩ | ⟨ht, hfn⟩ | ⟨ht, hfn⟩ <;>
    subst hfn <;> simp only [applyRelocFunc] at happ
  · injection happ with h'
    rw [Prod.mk.injEq] at h'
    rw [← h'.2]
    simp [ht, R_X86_64_NONE, R_X86_64_64]
  · split at happ
    · cases happ
    · injection happ with h'
      rw [Prod.mk.injEq] at h'
      rw [← h'.2]
      simp [ht, relocateX86_64_64]
  · split at happ
    · cases happ
    · injection happ with h'
      rw [Prod.mk.injEq] at h'
      rw [← h'.2]
      have hne : ¬ r.typ = R_X86_64_64 := by
        rcases ht with ht | ht <;> simp [ht, R_X86_64_64, R_X86_64_PC32, R_X86_64_PLT32]
      simp [hne, relocateX86_64_PC32]

theorem processRelocationsLoop_cons_error {data : List Nat} {r : RelocationEntry}
    {e : GrubError} (h : relocationStep data r = .error e)
    (rest : List RelocationEntry) (acc : List PERelocation) :
    processRelocationsLoop data (r :: rest) acc = .error e := by
  unfold processRelocationsLoop
  rw [h]

theorem processRelocationsLoop_cons_ok {data d' : List Nat} {r : RelocationEntry}
    {u : Option PERelocation} (h : relocationStep data r = .ok (d', u))
    (rest : List RelocationEntry) (acc : List PERelocation) :
    processRelocationsLoop data (r :: rest) acc =
      processRelocationsLoop d' rest (acc ++ u.toList) := by
  conv_lhs => unfold processRelocationsLoop
  rw [h]

theorem processRelocationsLoop_urels {rels : List RelocationEntry} {data out : List Nat}
    {acc urels : List PERelocation}
    (h : processRelocationsLoop data rels acc = .ok (out, urels)) :
    urels = acc ++ (rels.filter (fun r => r.typ = R_X86_64_64)).map
      (fun r => { kind := imageRelBasedDir64, fileOffset := r.fileOffset }) := by
  induction rels generalizing data acc with
  | nil =>
    simp only [processRelocationsLoop] at h
    injection h with h'
    rw [Prod.mk.injEq] at h'
    simp [← h'.2]
  | cons r rest ih =>
    cases hstep : relocationStep data r with
    | error e =>
      rw [processRelocationsLoop_cons_error hstep] at h
      cases h
    | ok v =>
      obtain ⟨d', u⟩ := v
      rw [processRelocationsLoop_cons_ok hstep] at h
      have hu := relocationStep_urel hstep
      by_cases ht : r.typ = R_X86_64_64
      · rw [if_pos ht] at hu
        subst hu
        rw [ih h]
        simp [ht, List.filter_cons]
      · rw [if_neg ht] at hu
        subst hu
        rw [ih h]
        simp [ht, List.filter_cons]

/-! ### Claim C4 -/

/-- C4: a relocation entry of type `R_X86_64_64` whose operand fits
replaces the 8 bytes at its section offset by the little-endian encoding
of `(original_operand + S + A) mod 2^64` (`S` the resolved symbol value,
`A` the addend's 64-bit pattern) and yields exactly one unresolved
relocation record of kind `Dir64` at the entry's file offset; across a
whole section, the unresolved records are exactly those of the
`R_X86_64_64` entries, in order, and the attached entry's file offset is
`target.addrInFile + entry.offset`. -/
theorem dir64_writes_sum_and_emits_pe_reloc :
    (∀ (data : List Nat) (r : RelocationEntry), r.typ = R_X86_64_64 →
      r.offset + 8 ≤ data.length →
      relocationStep data r = .ok (data.take r.offset
        ++ leEncode 8 ((leDecode ((data.drop r.offset).take 8) + r.symbValue + toU64 r.addend)
            % U64)
        ++ data.drop (r.offset + 8),
        some { kind := imageRelBasedDir64, fileOffset := r.fileOffset })) ∧
    (∀ (data out : List Nat) (rels : List RelocationEntry) (urels : List PERelocation),
      processRelocations data rels = .ok (out, urels) →
      urels = (rels.filter (fun r => r.typ = R_X86_64_64)).map
        (fun r => { kind := imageRelBasedDir64, fileOffset := r.fileOffset })) ∧
    (∀ (target : ElfSection) (symbs : List ElfSymbol) (relSymb relTyp relOffset : Nat)
      (relAddend : Int),
      (mkAttachedRelocation target symbs relSymb relTyp relOffset relAddend).fileOffset =
        u64 (target.addrInFile + relOffset)) := by
  refine ⟨?_, ?_, ?_⟩
  · intro data r ht hfit
    have hf : relocationFuncsX86_64 r.typ = some .adapter64 := by
      rw [ht]
      decide
    have hle : ¬ data.length ≤ r.offset := by omega
    have h8 : ¬ (data.drop r.offset).length < 8 := by
      simp only [List.length_drop]
      omega
    have hstep := relocationStep_eq_ok hf hle (applyRelocFunc_adapter64 (data.drop r.offset) r h8)
    rw [hstep, List.drop_drop, List.append_assoc]
  · intro data out rels urels h
    have := processRelocationsLoop_urels h
    simpa using this
  · intro target symbs relSymb relTyp relOffset relAddend
    rfl

/-- Concrete demonstration entry for C4. -/
def dir64Demo : RelocationEntry :=
  { typ := R_X86_64_64, addend := 5, offset := 0, fileOffset := 8192,
    symbValue := 4096, symbIndex := 1 }

/-- Witness for C4: applying a `R_X86_64_64` relocation to the bytes
`01 00 00 00 00 00 00 00` with `S = 4096`, `A = 5` writes `1 + 4096 + 5
= 4102 = 0x1006` little-endian and emits a `Dir64` record at file offset
8192. -/
theorem dir64_writes_sum_and_emits_pe_reloc_witness :
    relocationStep [1, 0, 0, 0, 0, 0, 0, 0] dir64Demo =
      .ok ([6, 16, 0, 0, 0, 0, 0, 0],
        some { kind := imageRelBasedDir64, fileOffset := 8192 }) := by
  have h := dir64_writes_sum_and_emits_pe_reloc.1 [1, 0, 0, 0, 0, 0, 0, 0] dir64Demo rfl
    (by decide)
  rw [h]
  rfl

/-! ### Claim C5 -/

/-- C5: a relocation entry of type `R_X86_64_PC32`, and identically one
of type `R_X86_64_PLT32`, whose operand fits replaces the 4 bytes at its
section offset by the little-endian two's complement encoding of
`(original_operand + (A mod 2^32) + (S mod 2^32) - (file_offset mod
2^32)) mod 2^32`, and emits no unresolved PE relocation; the attached
entry's file offset is `target.addrInFile + entry.offset`. -/
theorem pc32_writes_relative_and_emits_nothing :
    (∀ (data : List Nat) (r : RelocationEntry),
      (r.typ = R_X86_64_PC32 ∨ r.typ = R_X86_64_PLT32) →
      r.offset + 4 ≤ data.length →
      relocationStep data r = .ok (data.take r.offset
        ++ leEncode 4 ((((leDecode ((data.drop r.offset).take 4) : Int)
            + ((toU64 r.addend % U32 : Nat) : Int) + ((r.symbValue % U32 : Nat) : Int)
            - ((r.fileOffset % U32 : Nat) : Int)) % (U32 : Int)).toNat)
        ++ data.drop (r.offset + 4),
        none)) ∧
    (∀ (target : ElfSection) (symbs : List ElfSymbol) (relSymb relTyp relOffset : Nat)
      (relAddend : Int),
      (mkAttachedRelocation target symbs relSymb relTyp relOffset relAddend).fileOffset =
        u64 (target.addrInFile + relOffset)) := by
  refine ⟨?_, ?_⟩
  · intro data r ht hfit
    have hf : relocationFuncsX86_64 r.typ = some .adapter32 := by
      rcases ht with ht | ht <;> rw [ht] <;> decide
    have hle : ¬ data.length ≤ r.offset := by omega
    have h4 : ¬ (data.drop r.offset).length < 4 := by
      simp only [List.length_drop]
      omega
    have hstep := relocationStep_eq_ok hf hle (applyRelocFunc_adapter32 (data.drop r.offset) r h4)
    rw [hstep, List.drop_drop, List.append_assoc]
  · intro target symbs relSymb relTyp relOffset relAddend
    rfl

/-- Concrete demonstration entry for C5: the spec's PC32 scenario,
`call rel32` at section offset 1, `S = 4104`, `A = -4`, file offset
`4096 + 1 = 4097`. -/
def pc32Demo : RelocationEntry :=
  { typ := R_X86_64_PC32, addend := -4, offset := 1, fileOffset := 4097,
    symbValue := 4104, symbIndex := 1 }

/-- Witness for C5: the operand becomes `0 + (-4) + 4104 - 4097 = 3`,
little-endian `03 00 00 00`, and nothing is emitted for the PE
base-relocation table. -/
theorem pc32_writes_relative_and_emits_nothing_witness :
    relocationStep [232, 0, 0, 0, 0, 144, 144, 144] pc32Demo =
      .ok ([232, 3, 0, 0, 0, 144, 144, 144], none) := by
  have h := pc32_writes_relative_and_emits_nothing.1 [232, 0, 0, 0, 0, 144, 144, 144]
    pc32Demo (Or.inl rfl) (by decide)
  rw [h]
  rfl

/-! ### Claim C7 -/

theorem processRelocationsLoop_oob_iff (rels : List RelocationEntry) (data : List Nat)
    (acc : List PERelocation) :
    processRelocationsLoop data rels acc = .error .relocationOutOfBounds ↔
      ∃ pre e post, rels = pre ++ e :: post ∧ (∀ r ∈ pre, entryOk data.length r) ∧
        (relocationFuncsX86_64 e.typ).isSome ∧ data.length ≤ e.offset := by
  induction rels generalizing data acc with
  | nil =>
    simp only [processRelocationsLoop]
    constructor
    · intro h
      simp at h
    · rintro ⟨pre, e, post, hdecomp, -⟩
      cases pre <;> simp at hdecomp
  | cons r rest ih =>
    cases hstep : relocationStep data r with
    | error e =>
      rw [processRelocationsLoop_cons_error hstep rest acc]
      by_cases heq : e = GrubError.relocationOutOfBounds
      · subst heq
        obtain ⟨hsome, hle⟩ := (relocationStep_oob_iff data r).mp hstep
        constructor
        · intro _
          exact ⟨[], r, rest, rfl, by simp, hsome, hle⟩
        · intro _
          rfl
      · constructor
        · intro hcontra
          injection hcontra with h'
          exact absurd h' heq
        · rintro ⟨pre, e', post, hdecomp, hpre, hsome, hle⟩
          cases pre with
          | nil =>
            simp only [List.nil_append] at hdecomp
            injection hdecomp with h1 h2
            subst h1
            have hoob : relocationStep data r = .error .relocationOutOfBounds :=
              (relocationStep_oob_iff data r).mpr ⟨hsome, hle⟩
            rw [hstep] at hoob
            injection hoob with h'
            exact (heq h').elim
          | cons p pre' =>
            simp only [List.cons_append] at hdecomp
            injection hdecomp with h1 h2
            subst h1
            have hok := hpre r (List.mem_cons_self ..)
            obtain ⟨v, hv⟩ := (relocationStep_ok_iff data r).mpr hok
            rw [hstep] at hv
            cases hv
    | ok v =>
      obtain ⟨d', u⟩ := v
      rw [processRelocationsLoop_cons_ok hstep rest acc]
      have hlen := relocationStep_length hstep
      have hok : entryOk data.length r := (relocationStep_ok_iff data r).mp ⟨_, hstep⟩
      rw [ih d' (acc ++ u.toList), hlen]
      constructor
      · rintro ⟨pre, e', post, hdecomp, hpre, hsome, hle⟩
        refine ⟨r :: pre, e', post, by simp [hdecomp], ?_, hsome, hle⟩
        intro x hx
        rcases List.mem_cons.mp hx with hx | hx
        · subst hx
          exact hok
        · exact hpre x hx
      · rintro ⟨pre, e', post, hdecomp, hpre, hsome, hle⟩
        cases pre with
        | nil =>
          simp only [List.nil_append] at hdecomp
          injection hdecomp with h1 h2
          subst h1
          obtain ⟨-, hlt, -⟩ := hok
          omega
        | cons p pre' =>
          simp only [List.cons_append] at hdecomp
          injection hdecomp with h1 h2
          subst h1
          refine ⟨pre', e', post, h2, ?_, hsome, hle⟩
          intro x hx
          exact hpre x (List.mem_cons_of_mem _ hx)

/-- C7 counterexample: a zero-width `R_X86_64_NONE` entry at offset 0 of
an empty data buffer satisfies `section_offset + operand_width ≤ size`
(so the claim's bound predicts success), yet `processRelocations` fails
with `RelocationOutOfBounds`, because the code checks `offset >=
len(data)` rather than `offset + width <= len(data)`. -/
theorem bounds_check_counterexample :
    processRelocations []
        [{ typ := R_X86_64_NONE, addend := 0, offset := 0, fileOffset := 0,
           symbValue := 0, symbIndex := 0 }] = .error .relocationOutOfBounds ∧
    ({ typ := R_X86_64_NONE, addend := 0, offset := 0, fileOffset := 0, symbValue := 0,
        symbIndex := 0 } : RelocationEntry).offset
      + operandWidth R_X86_64_NONE ≤ ([] : List Nat).length := by
  exact ⟨rfl, by decide⟩

/-- C7 (amended): applying the attached relocations of a kept section
fails with `RelocationOutOfBounds` if and only if, scanning the entries
in order, an entry with `section_offset ≥ len(data)` (and a type present
in the dispatch table) is reached before any entry failing in a
different way: every earlier entry must have a dispatched type, an
offset strictly below `len(data)`, and an operand that fits
(`offset + width ≤ len(data)`); an entry whose offset is in range but
whose operand overruns the buffer fails with an unpack error instead,
and a zero-width entry at `offset = len(data)` does trigger
`RelocationOutOfBounds`. -/
theorem out_of_bounds_iff_offset_at_or_past_end (data : List Nat)
    (rels : List RelocationEntry) :
    processRelocations data rels = .error .relocationOutOfBounds ↔
      ∃ pre e post, rels = pre ++ e :: post ∧ (∀ r ∈ pre, entryOk data.length r) ∧
        (relocationFuncsX86_64 e.typ).isSome ∧ data.length ≤ e.offset :=
  processRelocationsLoop_oob_iff rels data []

/-- Witness for C7's amended statement: instantiation at the
counterexample input, in the forward direction. -/
theorem out_of_bounds_iff_offset_at_or_past_end_witness :
    ∃ pre e post,
      [({ typ := R_X86_64_NONE, addend := 0, offset := 0, fileOffset := 0,
          symbValue := 0, symbIndex := 0 } : RelocationEntry)] = pre ++ e :: post ∧
      (∀ r ∈ pre, entryOk ([] : List Nat).length r) ∧
      (relocationFuncsX86_64 e.typ).isSome ∧ ([] : List Nat).length ≤ e.offset :=
  (out_of_bounds_iff_offset_at_or_past_end []
    [{ typ := R_X86_64_NONE, addend := 0, offset := 0, fileOffset := 0,
       symbValue := 0, symbIndex := 0 }]).mp rfl

/-! ### The module dependency resolver (mods.go) -/

/-- `moduleDependencies`: the Go map is modelled as the insertion-order
list of bindings, with lookups returning the most recent binding for a
key (a later `list[module] = deps` overwrites an earlier one). -/
abbrev ModuleDependencies : Type := List (String × List String)

/-- Lookup in the dependency map: the last binding wins, as for a Go map
written by successive assignments. -/
def mdLookup (d : ModuleDependencies) (k : String) : Option (List String) :=
  ((List.reverse d).find? (fun p => p.1 = k)).map (fun p => p.2)

/-- Split a character list at every occurrence of `c`; the pieces do
not contain `c`, and the result always has at least one piece.  This is
the splitting underlying `strings.Split` with a one-character separator
and the line splitting of `bufio.Scanner`. -/
def splitChars (c : Char) : List Char → List (List Char)
  | [] => [[]]
  | a :: rest =>
    match splitChars c rest with
    | [] => [[]]
    | s :: ss => if a = c then [] :: s :: ss else (a :: s) :: ss

/-- `strings.Cut(s, sep)` for a one-character separator: the part
before the first `c` and the part after it, or `none` when `c` does not
occur. -/
def cutChar (c : Char) : List Char → Option (List Char × List Char)
  | [] => none
  | a :: rest =>
    if a = c then some ([], rest)
    else
      match cutChar c rest with
      | none => none
      | some (bef, aft) => some (a :: bef, aft)

/-- `strings.TrimSpace` on character lists: drop whitespace from both
ends. -/
def trimChars (l : List Char) : List Char :=
  ((l.dropWhile Char.isWhitespace).reverse.dropWhile Char.isWhitespace).reverse

/-- `strings.Cut(line, ":")`: the text before the first colon and the
text after it, or `none` when the line has no colon. -/
def cutColon (line : String) : Option (String × String) :=
  (cutChar ':' line.toList).map (fun p => (String.mk p.1, String.mk p.2))

/-- The lines a `bufio.Scanner` yields: the newline-separated pieces of
the input, except that a trailing final newline does not produce an
empty last line. -/
def scannerLines (content : String) : List String :=
  let ls := (splitChars (Char.ofNat 10) content.toList).map (fun l => String.mk l)
  if ls.getLast? = some "" then ls.dropLast else ls

/-- The line loop of `NewDependencyList` from mods.go: split each line
at its first colon (`InvalidDependencyListFormat` when there is none),
trim the dependency string, and store the space-separated dependency
names (none when the trimmed string is empty). -/
def buildDependencyList : List String → ModuleDependencies →
    Except GrubError ModuleDependencies
  | [], acc => .ok acc
  | line :: rest, acc =>
    match cutColon line with
    | none => .error .invalidDependencyListFormat
    | some (module, depString) =>
      let ds := trimChars depString.toList
      let deps := if ds = [] then []
        else (splitChars ' ' ds).map (fun l => String.mk l)
      buildDependencyList rest (acc ++ [(module, deps)])

/-- `NewDependencyList` from mods.go. -/
def newDependencyList (content : String) : Except GrubError ModuleDependencies :=
  buildDependencyList (scannerLines content) []

/-- Result of the `Resolve` work-queue loop under a fuel bound: the Go
loop has no fuel parameter, so `outOfFuel` marks runs that would still
be popping after `fuel` iterations (the Go code would keep looping). -/
inductive ResolveResult
  | ok (modules : List String)
  | err (e : GrubError)
  | outOfFuel
deriving Repr, DecidableEq

/-- The work-queue loop of `moduleDependencies.Resolve`: shift the front
module off the queue, append it to the visit list, fail on an unknown
name, and enqueue its direct dependencies. -/
def resolveLoop (d : ModuleDependencies) : Nat → List String → List String → ResolveResult
  | _, [], acc => .ok acc
  | 0, _ :: _, _ => .outOfFuel
  | fuel + 1, module :: rest, acc =>
    match mdLookup d module with
    | none => .err (.unrecognizedModule module)
    | some deps => resolveLoop d fuel (rest ++ deps) (acc ++ [module])

/-- The deduplication pass at the end of `Resolve`: keep the first
occurrence of each name, tracking the seen set. -/
def dedupFirst : List String → List String → List String
  | [], _ => []
  | x :: xs, seen => if x ∈ seen then dedupFirst xs seen else x :: dedupFirst xs (x :: seen)

/-- `moduleDependencies.Resolve` from mods.go: breadth-first expansion
of the requested modules, then reverse the visit list and deduplicate by
first occurrence. -/
def resolve (d : ModuleDependencies) (modules : List String) (fuel : Nat) : ResolveResult :=
  match resolveLoop d fuel modules [] with
  | .ok allDependencies => .ok (dedupFirst allDependencies.reverse [])
  | r => r

theorem resolveLoop_nil (d : ModuleDependencies) (n : Nat) (acc : List String) :
    resolveLoop d n [] acc = .ok acc := by
  cases n <;> rfl

theorem resolveLoop_succ (d : ModuleDependencies) (n : Nat) (x : String)
    (rest acc : List String) :
    resolveLoop d (n + 1) (x :: rest) acc =
      match mdLookup d x with
      | none => .err (.unrecognizedModule x)
      | some deps => resolveLoop d n (rest ++ deps) (acc ++ [x]) := rfl

/-- Adding fuel does not change a run that did not run out of fuel. -/
theorem resolveLoop_mono (d : ModuleDependencies) :
    ∀ (n : Nat) (q acc : List String), resolveLoop d n q acc ≠ .outOfFuel →
      ∀ m, resolveLoop d (n + m) q acc = resolveLoop d n q acc := by
  intro n
  induction n with
  | zero =>
    intro q acc h m
    cases q with
    | nil => rw [resolveLoop_nil, resolveLoop_nil]
    | cons x rest => exact absurd rfl h
  | succ k ih =>
    intro q acc h m
    cases q with
    | nil => rw [resolveLoop_nil, resolveLoop_nil]
    | cons x rest =>
      have heq : k + 1 + m = (k + m) + 1 := by omega
      rw [heq, resolveLoop_succ, resolveLoop_succ]
      rw [resolveLoop_succ] at h
      cases hl : mdLookup d x with
      | none => rfl
      | some deps =>
        rw [hl] at h
        exact ih (rest ++ deps) (acc ++ [x]) h m

theorem resolve_ok_mono {d : ModuleDependencies} {ms r : List String} {n : Nat}
    (h : resolve d ms n = .ok r) (m : Nat) : resolve d ms (n + m) = .ok r := by
  unfold resolve at h ⊢
  cases hl : resolveLoop d n ms [] with
  | ok v =>
    rw [resolveLoop_mono d n ms [] (by rw [hl]; exact fun hc => by cases hc) m, hl]
    rw [hl] at h
    exact h
  | err e =>
    rw [hl] at h
    cases h
  | outOfFuel =>
    rw [hl] at h
    cases h

/-! ### Claim C3 -/

/-- The spec's example `moddep.lst` content. -/
def moddepExample : String := "a: b c\nb: d\nc: d\nd: \n"

/-- The parsed form of `moddepExample`. -/
def moddepExampleDeps : ModuleDependencies :=
  [("a", ["b", "c"]), ("b", ["d"]), ("c", ["d"]), ("d", [])]

/-- C3 counterexample: parsing the spec's example `moddep.lst` and
resolving the request `[a]` yields `[d, c, b, a]` — the work-queue run
visits `a, b, c, d, d`, and reversing then deduplicating keeps the
*last* visit of each module, so `c` (enqueued after `b` but popped
later) precedes `b` — not the claimed `[d, b, c, a]`. -/
theorem resolve_diamond_counterexample :
    newDependencyList moddepExample = .ok moddepExampleDeps ∧
    resolve moddepExampleDeps ["a"] 100 = .ok ["d", "c", "b", "a"] ∧
    (["d", "c", "b", "a"] : List String) ≠ ["d", "b", "c", "a"] := by
  refine ⟨by rfl, by decide, by decide⟩

/-- C3 (amended): parsing the spec's example `moddep.lst` and resolving
the request `[a]` returns exactly `[d, c, b, a]` (each module exactly
once, every dependency before its dependants, but with `c` before `b`),
for every sufficient fuel; resolving `[a, b]` returns the same list. -/
theorem resolve_diamond_example (n : Nat) :
    newDependencyList moddepExample = .ok moddepExampleDeps ∧
    resolve moddepExampleDeps ["a"] (5 + n) = .ok ["d", "c", "b", "a"] ∧
    resolve moddepExampleDeps ["a", "b"] (7 + n) = .ok ["d", "c", "b", "a"] := by
  refine ⟨by rfl, ?_, ?_⟩
  · exact resolve_ok_mono (n := 5) (by decide) n
  · exact resolve_ok_mono (n := 7) (by decide) n

/-! ### Reachability and termination of the resolver -/

/-- The direct dependencies of `x` under `d` (empty for an unknown
name). -/
def depsOf (d : ModuleDependencies) (x : String) : List String :=
  (mdLookup d x).getD []

/-- `y` is a direct dependency of `x`. -/
def DepRel (d : ModuleDependencies) (y x : String) : Prop := y ∈ depsOf d x

/-- The module names reachable from a request list through the
dependency map. -/
inductive ReachableFrom (d : ModuleDependencies) (q : List String) : String → Prop
  | base {x : String} : x ∈ q → ReachableFrom d q x
  | step {x y : String} : ReachableFrom d q x → DepRel d y x → ReachableFrom d q y

theorem reachable_mono {d : ModuleDependencies} {q q' : List String}
    (hsub : ∀ x ∈ q, x ∈ q') {y : String} (h : ReachableFrom d q y) :
    ReachableFrom d q' y := by
  induction h with
  | base hx => exact .base (hsub _ hx)
  | step _ hdep ih => exact .step ih hdep

theorem not_reachable_nil {d : ModuleDependencies} {y : String} :
    ¬ ReachableFrom d ([] : List String) y := by
  intro h
  induction h with
  | base hmem => cases hmem
  | step _ _ ih => exact ih

theorem reachable_append_iff {d : ModuleDependencies} {q1 q2 : List String} {y : String} :
    ReachableFrom d (q1 ++ q2) y ↔ ReachableFrom d q1 y ∨ ReachableFrom d q2 y := by
  constructor
  · intro h
    induction h with
    | base hx =>
      rcases List.mem_append.mp hx with hx | hx
      · exact Or.inl (.base hx)
      · exact Or.inr (.base hx)
    | step _ hdep ih =>
      rcases ih with ih | ih
      · exact Or.inl (.step ih hdep)
      · exact Or.inr (.step ih hdep)
  · intro h
    rcases h with h | h
    · exact reachable_mono (fun x hx => List.mem_append.mpr (Or.inl hx)) h
    · exact reachable_mono (fun x hx => List.mem_append.mpr (Or.inr hx)) h

theorem reachable_trans {d : ModuleDependencies} {q : List String} {x y : String}
    (hx : ReachableFrom d q x) (hy : ReachableFrom d [x] y) : ReachableFrom d q y := by
  induction hy with
  | base hmem =>
    rcases List.mem_singleton.mp hmem with rfl
    exact hx
  | step _ hdep ih => exact .step ih hdep

theorem reachable_single_iff {d : ModuleDependencies} {x y : String} :
    ReachableFrom d [x] y ↔ y = x ∨ ReachableFrom d (depsOf d x) y := by
  constructor
  · intro h
    induction h with
    | base hmem => exact Or.inl (List.mem_singleton.mp hmem)
    | step hz hdep ih =>
      rcases ih with rfl | ih
      · exact Or.inr (.base hdep)
      · exact Or.inr (.step ih hdep)
  · intro h
    rcases h with rfl | h
    · exact .base (List.mem_singleton.mpr rfl)
    · induction h with
      | base hmem => exact .step (.base (List.mem_singleton.mpr rfl)) hmem
      | step _ hdep ih => exact .step ih hdep

theorem reachable_cons_iff {d : ModuleDependencies} {x : String} {rest : List String}
    {y : String} :
    ReachableFrom d (x :: rest) y ↔ ReachableFrom d [x] y ∨ ReachableFrom d rest y := by
  have : x :: rest = [x] ++ rest := rfl
  rw [this, reachable_append_iff]

/-- Accessibility propagates along reachability: every module reachable
from an accessible request set is itself accessible. -/
theorem reachable_acc {d : ModuleDependencies} {q : List String}
    (hacc : ∀ x ∈ q, Acc (DepRel d) x) {y : String} (h : ReachableFrom d q y) :
    Acc (DepRel d) y := by
  induction h with
  | base hx => exact hacc _ hx
  | step _ hdep ih => exact Acc.inv ih hdep

mutual

inductive SizeIs (d : ModuleDependencies) : String → Nat → Prop
  | mk {x : String} {deps : List String} {k : Nat} :
      mdLookup d x = some deps → SizesSum d deps k → SizeIs d x (1 + k)

inductive SizesSum (d : ModuleDependencies) : List String → Nat → Prop
  | nil : SizesSum d [] 0
  | cons {x : String} {xs : List String} {k ks : Nat} :
      SizeIs d x k → SizesSum d xs ks → SizesSum d (x :: xs) (k + ks)

end

theorem sizesSum_append {d : ModuleDependencies} {q1 q2 : List String} {a b : Nat}
    (h1 : SizesSum d q1 a) (h2 : SizesSum d q2 b) : SizesSum d (q1 ++ q2) (a + b) := by
  induction q1 generalizing a with
  | nil =>
    cases h1
    simpa using h2
  | cons x xs ih =>
    cases h1 with
    | cons hx hxs =>
      rename_i k ks
      have := SizesSum.cons hx (ih hxs)
      simpa [Nat.add_assoc] using this

/-- A queue whose total expansion size is `n` is fully drained by the
work-queue loop with fuel `n`: each pop costs one unit of fuel and
replaces the popped module (size `1 + k`) by its dependencies (size
`k`). -/
theorem sizesSum_resolveLoop (d : ModuleDependencies) :
    ∀ (n : Nat) (q acc : List String), SizesSum d q n →
      ∃ v, resolveLoop d n q acc = .ok v := by
  intro n
  induction n using Nat.strong_induction_on with
  | _ n ih =>
    intro q acc hq
    cases q with
    | nil =>
      cases hq
      exact ⟨acc, resolveLoop_nil d 0 acc⟩
    | cons x rest =>
      cases hq with
      | cons hx hrest =>
        rename_i k ks
        cases hx with
        | mk hl hdeps =>
          rename_i deps k'
          have hsum : SizesSum d (rest ++ deps) (ks + k') := sizesSum_append hrest hdeps
          have hn : 1 + k' + ks = (ks + k') + 1 := by omega
          rw [hn, resolveLoop_succ, hl]
          exact ih (ks + k') (by omega) (rest ++ deps) (acc ++ [x]) hsum

/-- From accessibility and closedness of the key set, every module has
an expansion size. -/
theorem acc_to_sizeIs {d : ModuleDependencies} {x : String} (hacc : Acc (DepRel d) x)
    (hkeys : ∀ y, ReachableFrom d [x] y → (mdLookup d y).isSome) :
    ∃ k, SizeIs d x k := by
  induction hacc with
  | intro x hx ih =>
    obtain ⟨deps, hl⟩ := Option.isSome_iff_exists.mp
      (hkeys x (.base (List.mem_singleton.mpr rfl)))
    have hdeps : ∀ y ∈ deps, ∃ k, SizeIs d y k := by
      intro y hy
      have hdep : DepRel d y x := by
        unfold DepRel depsOf
        rw [hl]
        exact hy
      refine ih y hdep ?_
      intro z hz
      refine hkeys z (reachable_trans ?_ hz)
      exact .step (.base (List.mem_singleton.mpr rfl)) hdep
    have : ∀ (l : List String), (∀ y ∈ l, ∃ k, SizeIs d y k) → ∃ s, SizesSum d l s := by
      intro l
      induction l with
      | nil => exact fun _ => ⟨0, .nil⟩
      | cons z zs ihl =>
        intro hall
        obtain ⟨k, hk⟩ := hall z (List.mem_cons_self ..)
        obtain ⟨s, hs⟩ := ihl (fun y hy => hall y (List.mem_cons_of_mem _ hy))
        exact ⟨k + s, .cons hk hs⟩
    obtain ⟨s, hs⟩ := this deps hdeps
    exact ⟨1 + s, .mk hl hs⟩

/-! ### Facts extracted from a successful work-queue run -/

/-- A successful run shows every queued module accessible (an
inaccessible one would feed the queue forever). -/
theorem resolveLoop_ok_acc {d : ModuleDependencies} :
    ∀ {n : Nat} {q acc v : List String}, resolveLoop d n q acc = .ok v →
      ∀ x ∈ q, Acc (DepRel d) x := by
  intro n
  induction n with
  | zero =>
    intro q acc v h x hx
    cases q with
    | nil => cases hx
    | cons y rest => cases h
  | succ k ih =>
    intro q acc v h x hx
    cases q with
    | nil => cases hx
    | cons y rest =>
      rw [resolveLoop_succ] at h
      cases hl : mdLookup d y with
      | none => rw [hl] at h; cases h
      | some deps =>
        rw [hl] at h
        have hrec := ih h
        rcases List.mem_cons.mp hx with rfl | hx
        · refine Acc.intro x ?_
          intro z hz
          refine hrec z (List.mem_append.mpr (Or.inr ?_))
          unfold DepRel depsOf at hz
          rw [hl] at hz
          exact hz
        · exact hrec x (List.mem_append.mpr (Or.inl hx))

/-- A successful run shows every reachable module is a key of the
dependency map. -/
theorem resolveLoop_ok_keys {d : ModuleDependencies} :
    ∀ {n : Nat} {q acc v : List String}, resolveLoop d n q acc = .ok v →
      ∀ y, ReachableFrom d q y → (mdLookup d y).isSome := by
  intro n
  induction n with
  | zero =>
    intro q acc v h y hy
    cases q with
    | nil => exact absurd hy not_reachable_nil
    | cons x rest => cases h
  | succ k ih =>
    intro q acc v h y hy
    cases q with
    | nil => exact absurd hy not_reachable_nil
    | cons x rest =>
      rw [resolveLoop_succ] at h
      cases hl : mdLookup d x with
      | none => rw [hl] at h; cases h
      | some deps =>
        rw [hl] at h
        rcases reachable_cons_iff.mp hy with hy | hy
        · rcases reachable_single_iff.mp hy with rfl | hy
          · simp [hl]
          · refine ih h y ?_
            refine reachable_mono (fun z hz => List.mem_append.mpr (Or.inr ?_)) hy
            unfold depsOf at hz
            rw [hl] at hz
            exact hz
        · exact ih h y (reachable_mono (fun z hz => List.mem_append.mpr (Or.inl hz)) hy)

/-- A successful run visits exactly the reachable modules (plus
whatever was already in the visit list). -/
theorem resolveLoop_ok_mem {d : ModuleDependencies} :
    ∀ {n : Nat} {q acc v : List String}, resolveLoop d n q acc = .ok v →
      ∀ y, y ∈ v ↔ y ∈ acc ∨ ReachableFrom d q y := by
  intro n
  induction n with
  | zero =>
    intro q acc v h y
    cases q with
    | nil =>
      rw [resolveLoop_nil] at h
      injection h with h'
      subst h'
      constructor
      · exact fun hy => Or.inl hy
      · rintro (hy | hy)
        · exact hy
        · exact absurd hy not_reachable_nil
    | cons x rest => cases h
  | succ k ih =>
    intro q acc v h y
    cases q with
    | nil =>
      rw [resolveLoop_nil] at h
      injection h with h'
      subst h'
      constructor
      · exact fun hy => Or.inl hy
      · rintro (hy | hy)
        · exact hy
        · exact absurd hy not_reachable_nil
    | cons x rest =>
      rw [resolveLoop_succ] at h
      cases hl : mdLookup d x with
      | none => rw [hl] at h; cases h
      | some deps =>
        rw [hl] at h
        rw [ih h y]
        have hq : ∀ z, ReachableFrom d (x :: rest) z ↔
            z = x ∨ ReachableFrom d (rest ++ deps) z := by
          intro z
          rw [reachable_cons_iff, reachable_single_iff, reachable_append_iff]
          have hdx : depsOf d x = deps := by
            unfold depsOf
            rw [hl]
            rfl
          rw [hdx]
          tauto
        rw [hq y]
        simp [List.mem_append]
        tauto

theorem reachable_of_reachable_subset {d : ModuleDependencies} {q p : List String}
    (hsub : ∀ x ∈ q, ReachableFrom d p x) :
    ∀ z, ReachableFrom d q z → ReachableFrom d p z := by
  intro z h
  induction h with
  | base hx => exact hsub _ hx
  | step _ hdep ih => exact .step ih hdep

theorem reachable_in_closed_set {d : ModuleDependencies} {q names : List String}
    (hq : ∀ x ∈ q, x ∈ names)
    (hclosed : ∀ x ∈ names, ∀ y ∈ depsOf d x, y ∈ names) :
    ∀ z, ReachableFrom d q z → z ∈ names := by
  intro z h
  induction h with
  | base hx => exact hq _ hx
  | step _ hdep ih => exact hclosed _ ih _ hdep

theorem sizesSum_of_all {d : ModuleDependencies} :
    ∀ (l : List String), (∀ y ∈ l, ∃ k, SizeIs d y k) → ∃ s, SizesSum d l s := by
  intro l
  induction l with
  | nil => exact fun _ => ⟨0, .nil⟩
  | cons z zs ih =>
    intro hall
    obtain ⟨k, hk⟩ := hall z (List.mem_cons_self ..)
    obtain ⟨s, hs⟩ := ih (fun y hy => hall y (List.mem_cons_of_mem _ hy))
    exact ⟨k + s, .cons hk hs⟩

/-- Core termination result: a queue of accessible modules whose
reachable names are all keys of the map is fully drained by the loop for
some fuel. -/
theorem resolveLoop_terminates (d : ModuleDependencies) (q : List String)
    (hkeys : ∀ x, ReachableFrom d q x → (mdLookup d x).isSome)
    (hacc : ∀ x ∈ q, Acc (DepRel d) x) :
    ∃ n v, resolveLoop d n q [] = .ok v := by
  have hsz : ∀ x ∈ q, ∃ k, SizeIs d x k := by
    intro x hx
    refine acc_to_sizeIs (hacc x hx) ?_
    intro y hy
    exact hkeys y (reachable_trans (.base hx) hy)
  obtain ⟨s, hs⟩ := sizesSum_of_all q hsz
  obtain ⟨v, hv⟩ := sizesSum_resolveLoop d s q [] hs
  exact ⟨s, v, hv⟩

theorem dedupFirst_mem (l : List String) :
    ∀ (seen : List String) (x : String), x ∈ dedupFirst l seen ↔ x ∈ l ∧ x ∉ seen := by
  induction l with
  | nil => simp [dedupFirst]
  | cons a as ih =>
    intro seen x
    simp only [dedupFirst]
    by_cases ha : a ∈ seen
    · rw [if_pos ha, ih]
      constructor
      · rintro ⟨hx, hs⟩
        exact ⟨List.mem_cons_of_mem _ hx, hs⟩
      · rintro ⟨hx, hs⟩
        rcases List.mem_cons.mp hx with rfl | hx
        · exact (hs ha).elim
        · exact ⟨hx, hs⟩
    · rw [if_neg ha]
      constructor
      · intro hx
        rcases List.mem_cons.mp hx with rfl | hx
        · exact ⟨List.mem_cons_self .., ha⟩
        · obtain ⟨h1, h2⟩ := (ih (a :: seen) x).mp hx
          exact ⟨List.mem_cons_of_mem _ h1, fun hs => h2 (List.mem_cons_of_mem _ hs)⟩
      · rintro ⟨hx, hs⟩
        rcases List.mem_cons.mp hx with rfl | hx
        · exact List.mem_cons_self ..
        · by_cases hxa : x = a
          · subst hxa
            exact List.mem_cons_self ..
          · refine List.mem_cons_of_mem _ ((ih _ x).mpr ⟨hx, ?_⟩)
            intro hmem
            rcases List.mem_cons.mp hmem with h | h
            · exact hxa h
            · exact hs h

theorem dedupFirst_nodup (l : List String) :
    ∀ seen, (dedupFirst l seen).Nodup := by
  induction l with
  | nil =>
    intro seen
    simp [dedupFirst]
  | cons a as ih =>
    intro seen
    simp only [dedupFirst]
    by_cases ha : a ∈ seen
    · rw [if_pos ha]
      exact ih seen
    · rw [if_neg ha]
      refine List.nodup_cons.mpr ⟨?_, ih (a :: seen)⟩
      intro hmem
      exact ((dedupFirst_mem as (a :: seen) a).mp hmem).2 (List.mem_cons_self ..)

/-! ### Claims C9 and C10 -/

/-- C9 counterexample: order preservation fails.  Resolving `[a, b]`
against `{a: [x], b: [], x: []}` yields `[x, b, a]`; resolving that
result again yields `[x, a, b]`, a different list (the second run's last
visit of `a` precedes its revisit of `x`, flipping `a` past `b`). -/
def idemCounterDeps : ModuleDependencies := [("a", ["x"]), ("b", []), ("x", [])]

theorem resolve_not_order_preserving_counterexample :
    resolve idemCounterDeps ["a", "b"] 100 = .ok ["x", "b", "a"] ∧
    resolve idemCounterDeps ["x", "b", "a"] 100 = .ok ["x", "a", "b"] ∧
    (["x", "a", "b"] : List String) ≠ ["x", "b", "a"] := by
  refine ⟨by decide, by decide, by decide⟩

/-- C9 (amended): dependency resolution is idempotent up to
permutation, not up to order: whenever `Resolve(d, ms)` succeeds with
result `r`, `r` has no duplicates, and `Resolve(d, r)` also succeeds
(for some fuel) with a result that again has no duplicates and contains
exactly the modules of `r`. -/
theorem resolve_idempotent_up_to_permutation (d : ModuleDependencies)
    (ms r : List String) (n : Nat) (h : resolve d ms n = .ok r) :
    r.Nodup ∧ ∃ m r', resolve d r m = .ok r' ∧ r'.Nodup ∧ (∀ x, x ∈ r' ↔ x ∈ r) := by
  unfold resolve at h
  cases hl : resolveLoop d n ms [] with
  | err e =>
    rw [hl] at h
    cases h
  | outOfFuel =>
    rw [hl] at h
    cases h
  | ok v =>
    rw [hl] at h
    injection h with h'
    subst h'
    have hmemr : ∀ x, x ∈ dedupFirst v.reverse [] ↔ x ∈ v := by
      intro x
      rw [dedupFirst_mem]
      simp
    have hv_mem : ∀ y, y ∈ v ↔ ReachableFrom d ms y := by
      intro y
      have := resolveLoop_ok_mem hl y
      simpa using this
    have hacc_ms : ∀ x ∈ ms, Acc (DepRel d) x := resolveLoop_ok_acc hl
    have hkeys_ms : ∀ y, ReachableFrom d ms y → (mdLookup d y).isSome :=
      resolveLoop_ok_keys hl
    have hr_reach : ∀ x ∈ dedupFirst v.reverse [], ReachableFrom d ms x := by
      intro x hx
      exact (hv_mem x).mp ((hmemr x).mp hx)
    have hreach_iff : ∀ z, ReachableFrom d (dedupFirst v.reverse []) z ↔
        ReachableFrom d ms z := by
      intro z
      constructor
      · exact reachable_of_reachable_subset hr_reach z
      · intro hz
        refine reachable_of_reachable_subset ?_ z hz
        intro x hx
        exact .base ((hmemr x).mpr ((hv_mem x).mpr (.base hx)))
    obtain ⟨m, v2, hv2⟩ := resolveLoop_terminates d (dedupFirst v.reverse [])
      (fun z hz => hkeys_ms z ((hreach_iff z).mp hz))
      (fun x hx => reachable_acc hacc_ms (hr_reach x hx))
    refine ⟨dedupFirst_nodup _ _, m, dedupFirst v2.reverse [], ?_, dedupFirst_nodup _ _, ?_⟩
    · unfold resolve
      rw [hv2]
    · intro x
      have hm2 : x ∈ dedupFirst v2.reverse [] ↔ x ∈ v2 := by
        rw [dedupFirst_mem]
        simp
      have hv2_mem : ∀ y, y ∈ v2 ↔ ReachableFrom d (dedupFirst v.reverse []) y := by
        intro y
        have := resolveLoop_ok_mem hv2 y
        simpa using this
      rw [hm2, hv2_mem, hreach_iff, ← hv_mem, ← hmemr]

/-- Witness for C9's amended statement, at the counterexample input. -/
theorem resolve_idempotent_up_to_permutation_witness :
    (["x", "b", "a"] : List String).Nodup ∧
    ∃ m r', resolve idemCounterDeps ["x", "b", "a"] m = .ok r' ∧ r'.Nodup ∧
      (∀ x, x ∈ r' ↔ x ∈ (["x", "b", "a"] : List String)) :=
  resolve_idempotent_up_to_permutation idemCounterDeps ["a", "b"] ["x", "b", "a"] 100
    (by decide)

/-- C10: `Resolve` terminates on acyclic inputs.  When every module
reachable from the requests is a key of the dependency map and every
request is accessible under the direct-dependency relation (the
well-founded rendering of "the reachable dependency graph contains no
cycle" for the finite graph stored in the map), the work-queue loop pops
only finitely many elements: some fuel bound makes it return
successfully, so the fuel-free Go loop returns. -/
theorem resolve_terminates_on_acyclic_requests (d : ModuleDependencies) (ms : List String)
    (hkeys : ∀ x, ReachableFrom d ms x → (mdLookup d x).isSome)
    (hacc : ∀ x ∈ ms, Acc (DepRel d) x) :
    ∃ n r, resolve d ms n = .ok r := by
  obtain ⟨n, v, hv⟩ := resolveLoop_terminates d ms hkeys hacc
  refine ⟨n, dedupFirst v.reverse [], ?_⟩
  unfold resolve
  rw [hv]

/-- Concrete acyclic dependency map for the C10 witness. -/
def demoAcyclicDeps : ModuleDependencies := [("a", ["b"]), ("b", [])]

/-- Witness for C10: the resolver terminates on the two-module chain
`a → b`. -/
theorem resolve_terminates_on_acyclic_requests_witness :
    ∃ n r, resolve demoAcyclicDeps ["a"] n = .ok r := by
  have haccb : Acc (DepRel demoAcyclicDeps) "b" := by
    refine Acc.intro _ ?_
    intro y hy
    have hd : depsOf demoAcyclicDeps "b" = [] := by decide
    unfold DepRel at hy
    rw [hd] at hy
    cases hy
  have hacca : Acc (DepRel demoAcyclicDeps) "a" := by
    refine Acc.intro _ ?_
    intro y hy
    have hd : depsOf demoAcyclicDeps "a" = ["b"] := by decide
    unfold DepRel at hy
    rw [hd] at hy
    rcases List.mem_singleton.mp hy with rfl
    exact haccb
  apply resolve_terminates_on_acyclic_requests
  · intro x hx
    have hin : x ∈ ["a", "b"] := by
      refine reachable_in_closed_set ?_ ?_ x hx
      · intro z hz
        rcases List.mem_singleton.mp hz with rfl
        decide
      · intro z hz y hy
        rcases List.mem_cons.mp hz with rfl | hz
        · have hd : depsOf demoAcyclicDeps "a" = ["b"] := by decide
          rw [hd] at hy
          rcases List.mem_singleton.mp hy with rfl
          decide
        · rcases List.mem_singleton.mp hz with rfl
          have hd : depsOf demoAcyclicDeps "b" = [] := by decide
          rw [hd] at hy
          cases hy
    rcases List.mem_cons.mp hin with rfl | hin
    · decide
    · rcases List.mem_singleton.mp hin with rfl
      decide
  · intro x hx
    rcases List.mem_singleton.mp hx with rfl
    exact hacca

/-! ### relocateAddresses and the image constructor -/

/-- Read `n` bytes from the front of a byte stream, as one `struc`
unpack does (failing when the stream is short). -/
def takeBytes (n : Nat) (bs : List Nat) : Except GrubError (List Nat × List Nat) :=
  if bs.length < n then .error .readEntryFailed else .ok (bs.take n, bs.drop n)

/-- `readRelEntry` from reloc.go: a little-endian `Rel64` record (`Off`
then `Info`); the `info` word is split by `relocationInfo`, the addend
is zero.  Returns `(sym, typ, offset, addend)` and the remaining
bytes. -/
def readRelEntry (bs : List Nat) : Except GrubError ((Nat × Nat × Nat × Int) × List Nat) :=
  match takeBytes 8 bs with
  | .error e => .error e
  | .ok (offB, bs1) =>
    match takeBytes 8 bs1 with
    | .error e => .error e
    | .ok (infoB, bs2) =>
      let info := leDecode infoB
      .ok (((relocationInfo info).1, (relocationInfo info).2, leDecode offB, 0), bs2)

/-- `readRelaEntry` from reloc.go: a little-endian `Rela64` record
(`Off`, `Info`, then a signed 64-bit `Addend`). -/
def readRelaEntry (bs : List Nat) : Except GrubError ((Nat × Nat × Nat × Int) × List Nat) :=
  match takeBytes 8 bs with
  | .error e => .error e
  | .ok (offB, bs1) =>
    match takeBytes 8 bs1 with
    | .error e => .error e
    | .ok (infoB, bs2) =>
      match takeBytes 8 bs2 with
      | .error e => .error e
      | .ok (addB, bs3) =>
        let info := leDecode infoB
        .ok (((relocationInfo info).1, (relocationInfo info).2, leDecode offB,
          toInt64 (leDecode addB)), bs3)

/-- The entry loop of `relocateAddresses` for one `REL`/`RELA` section:
read `numEntries` records sequentially, bounds-check each symbol index
against the relocated symbol table, check the type against the dispatch
table, and attach the resulting relocation records (in order) for the
target section. -/
def collectRelocations (symbs : List ElfSymbol) (target : ElfSection) (hasAddend : Bool) :
    Nat → List Nat → Except GrubError (List RelocationEntry)
  | 0, _ => .ok []
  | n + 1, bs =>
    match (if hasAddend then readRelaEntry bs else readRelEntry bs) with
    | .error e => .error e
    | .ok ((relSymb, relTyp, relOffset, relAddend), rest) =>
      if symbs.length ≤ relSymb then .error .badSymbolIndex
      else if (relocationFuncsX86_64 relTyp).isNone then .error .unsupportedRelocation
      else
        match collectRelocations symbs target hasAddend n rest with
        | .error e => .error e
        | .ok others =>
          .ok (mkAttachedRelocation target symbs relSymb relTyp relOffset relAddend :: others)

/-- Mutation of `targetSection.relocations` in `relocateAddresses`,
keyed by the kept section's index (kept sections have distinct indices):
append the new records to the target's list. -/
def addAttachments : List (Nat × List RelocationEntry) → Nat → List RelocationEntry →
    List (Nat × List RelocationEntry)
  | [], i, new => [(i, new)]
  | (j, old) :: rest, i, new =>
    if j = i then (j, old ++ new) :: rest else (j, old) :: addAttachments rest i new

/-- The relocation records attached to the section with index `i`. -/
def attachmentsFor (atts : List (Nat × List RelocationEntry)) (i : Nat) :
    List RelocationEntry :=
  ((atts.find? (fun p => p.1 = i)).map (fun p => p.2)).getD []

/-- The first phase of `relocateAddresses`: walk `f.Sections`; for every
`REL`/`RELA` section whose target (named by its `Info` field) was kept
by the planner, decode and attach its entries; a relocation section for
an excluded target is skipped with a warning.  `numEntries` is
`section.Size / section.Entsize` (Nat division; Go would panic on a zero
`Entsize`, which no well-formed relocation section has). -/
def gatherAttachments (vss : List VirtualSection) (symbs : List ElfSymbol) :
    List ElfSection → List (Nat × List RelocationEntry) →
    Except GrubError (List (Nat × List RelocationEntry))
  | [], atts => .ok atts
  | s :: rest, atts =>
    if s.typ = SHT_REL ∨ s.typ = SHT_RELA then
      match lookupSectionByIndex vss s.info with
      | none => gatherAttachments vss symbs rest atts
      | some target =>
        match collectRelocations symbs target (s.typ = SHT_RELA) (s.size / s.entsize)
            s.data with
        | .error e => .error e
        | .ok entries =>
          gatherAttachments vss symbs rest (addAttachments atts target.index entries)
    else gatherAttachments vss symbs rest atts

/-- The second phase of `relocateAddresses`: for every kept section with
attached relocations, in layout order, pre-process the relocations and
concatenate the unresolved PE relocations they produce. -/
def processKeptSections (atts : List (Nat × List RelocationEntry)) :
    List ElfSection → Except GrubError (List PERelocation)
  | [] => .ok []
  | s :: rest =>
    let rels := attachmentsFor atts s.index
    if rels.isEmpty then processKeptSections atts rest
    else
      match processRelocations s.data rels with
      | .error e => .error e
      | .ok (_, urels) =>
        match processKeptSections atts rest with
        | .error e => .error e
        | .ok more => .ok (urels ++ more)

/-- `relocateAddresses` from reloc.go (first revision): dispatch on the
machine type, attach every relocation entry to its kept target section,
then process all attached relocations, collecting the unresolved PE
relocations. -/
def relocateAddresses (machine : Nat) (sections : List ElfSection)
    (vss : List VirtualSection) (symbs : List ElfSymbol) :
    Except GrubError (List PERelocation) :=
  if machine = EM_X86_64 then
    match gatherAttachments vss symbs sections [] with
    | .error e => .error e
    | .ok atts => processKeptSections atts (allRealSections vss)
  else .error .unsupportedELFMachineType

/-- Go `uint32` reduction. -/
def u32 (n : Nat) : Nat := n % U32

/-- Go `uint32` subtraction (wraparound), for `a b < 2^32`. -/
def sub32 (a b : Nat) : Nat := (U32 + a - b) % U32

/-- `align.Address` instantiated at `uint32`. -/
def alignAddress32 (addr alignment : Nat) : Nat :=
  if alignment = 0 then addr
  else u32 (addr + alignment - 1) / alignment * alignment

/-- Modelled from the spec: `efipe.PEHeaderSize` is not among the
source files (only its caller in image.go is); spec section 4.10
states that the existing implementation reserves `H = P = 4096` bytes of
header regardless of the section count passed. -/
def pEHeaderSize (_sections : Nat) : Nat := 4096

def moduleInfoStructSize : Nat := 24
def moduleHeaderStructSize : Nat := 8

/-- The virtual (page-padded) size of the module section built by
`newModuleSection` in mods.go: the 24-byte info header plus an 8-byte
header and the payload per module, padded so that `offset + size` is
aligned; all arithmetic is `uint64` for the total and `uint32` for the
padding. -/
def moduleSectionVirtualSize (payloadSizes : List Nat) (offset alignment : Nat) : Nat :=
  let totalSize := u64
    ((payloadSizes.foldl (fun t p => u64 (t + u32 p + moduleHeaderStructSize)) 0)
      + moduleInfoStructSize)
  sub32 (alignAddress32 (u32 (offset + u32 totalSize)) alignment) offset

/-- The `grub.Image` fields the claims observe. -/
structure Image where
  headerSize : Nat
  size : Nat
  symbols : List ElfSymbol
  virtualSections : List VirtualSection
  relocations : List PERelocation
deriving Repr, DecidableEq

/-- `NewImage` from image.go, over an already-parsed ELF (machine type,
section table, and the symbols `elf.File.Symbols` returns); modules are
represented by their payload sizes, the only attribute construction
reads.  Mirrors the Go order: machine check, section planning, symbol
relocation, address relocation, entrypoint check, then the size
computation (uint32 arithmetic) including the optional module
section. -/
def newImage (machine : Nat) (sections : List ElfSection) (goSymbols : List ElfSymbol)
    (modPayloadSizes : List Nat) (alignment : Nat) : Except GrubError Image :=
  if ¬ machine = EM_X86_64 then .error .unsupportedELFMachineType
  else
    let headerSize := pEHeaderSize 3
    let vss := layoutVirtualSections sections headerSize alignment
    match relocateSymbols goSymbols vss with
    | .error e => .error e
    | .ok symbs =>
      match relocateAddresses machine sections vss symbs with
      | .error e => .error e
      | .ok relocs =>
        if ¬ symbs.any (fun s => s.name = symbStart) then .error .noEntrypoint
        else
          let lastSection := vss.getLastD ⟨0, 0, .text, []⟩
          let endAddr := alignAddress32 (u32 (lastSection.offset + lastSection.size))
            alignment
          let finalEnd :=
            if 0 < modPayloadSizes.length then
              alignAddress32
                (u32 (endAddr + moduleSectionVirtualSize modPayloadSizes endAddr alignment))
                alignment
            else endAddr
          .ok { headerSize := headerSize, size := finalEnd, symbols := symbs,
                virtualSections := vss, relocations := relocs }

/-- The caller pipeline (cmd/pixie: `grub.NewImage`, then `efipe.New`
and `efipe.Image.WriteTo` on the result): bytes reach the output sink
only through the emission step, which runs only on a successfully
constructed image.  `emit` abstracts the PE writer. -/
def writtenBytes (machine : Nat) (sections : List ElfSection) (goSymbols : List ElfSymbol)
    (modPayloadSizes : List Nat) (alignment : Nat) (emit : Image → List Nat) : List Nat :=
  match newImage machine sections goSymbols modPayloadSizes alignment with
  | .error _ => []
  | .ok img => emit img

/-! ### Claim C8 -/

theorem forall₂_exists_left {α β : Type} {R : α → β → Prop} {l1 : List α} {l2 : List β}
    (h : List.Forall₂ R l1 l2) : ∀ b ∈ l2, ∃ a ∈ l1, R a b := by
  induction h with
  | nil =>
    intro b hb
    cases hb
  | cons hr _ ih =>
    intro b hb
    rcases List.mem_cons.mp hb with rfl | hb
    · exact ⟨_, List.mem_cons_self .., hr⟩
    · obtain ⟨a, ha, har⟩ := ih b hb
      exact ⟨a, List.mem_cons_of_mem _ ha, har⟩

/-- A relocated symbol table contains no `_start` when the input
contained none (the injected zero symbol has an empty name and the
per-symbol rewrite preserves names). -/
theorem relocateSymbols_no_start {goSymbols : List ElfSymbol} {vss : List VirtualSection}
    {out : List ElfSymbol} (h : relocateSymbols goSymbols vss = .ok out)
    (hno : ∀ s ∈ goSymbols, ¬ s.name = symbStart) :
    out.any (fun s => s.name = symbStart) = false := by
  unfold relocateSymbols at h
  cases hp : processSymbols
      (relocateSymbol (bssStartOf vss) (endOf vss) (lookupSectionByIndex vss)) goSymbols with
  | error e =>
    rw [hp] at h
    cases h
  | ok rest =>
    rw [hp] at h
    injection h with h'
    subst h'
    have hf := processSymbols_ok_forall₂ hp
    rw [List.any_eq_false]
    intro s hs
    rcases List.mem_cons.mp hs with rfl | hs
    · simp [ElfSymbol.zero, symbStart]
    · obtain ⟨a, ha, har⟩ := forall₂_exists_left hf s hs
      have := (relocateSymbol_preserves_name_section har).1
      simp only [decide_eq_true_eq]
      rw [this]
      exact hno a ha

/-- C8: when the ELF's symbol table contains no symbol named `_start`,
image construction can never succeed (and hence the caller pipeline
writes no bytes to the sink, since the PE writer only runs on a
successfully constructed image), and when both the symbol and the
address relocation phases succeed the construction fails exactly with
`NoEntrypoint`. -/
theorem no_entrypoint_fails_and_writes_nothing :
    (∀ (machine : Nat) (sections : List ElfSection) (goSymbols : List ElfSymbol)
      (mods : List Nat) (alignment : Nat),
      (∀ s ∈ goSymbols, ¬ s.name = symbStart) →
      (∀ img, ¬ newImage machine sections goSymbols mods alignment = .ok img) ∧
      (∀ emit, writtenBytes machine sections goSymbols mods alignment emit = [])) ∧
    (∀ (sections : List ElfSection) (goSymbols : List ElfSymbol) (mods : List Nat)
      (alignment : Nat) (symbs : List ElfSymbol) (relocs : List PERelocation),
      (∀ s ∈ goSymbols, ¬ s.name = symbStart) →
      relocateSymbols goSymbols
        (layoutVirtualSections sections (pEHeaderSize 3) alignment) = .ok symbs →
      relocateAddresses EM_X86_64 sections
        (layoutVirtualSections sections (pEHeaderSize 3) alignment) symbs = .ok relocs →
      newImage EM_X86_64 sections goSymbols mods alignment = .error .noEntrypoint) := by
  have hnoOk : ∀ (machine : Nat) (sections : List ElfSection) (goSymbols : List ElfSymbol)
      (mods : List Nat) (alignment : Nat),
      (∀ s ∈ goSymbols, ¬ s.name = symbStart) →
      ∀ img, ¬ newImage machine sections goSymbols mods alignment = .ok img := by
    intro machine sections goSymbols mods alignment hno img hcontra
    unfold newImage at hcontra
    by_cases hm : machine = EM_X86_64
    · rw [if_neg (by simp [hm])] at hcontra
      simp only [] at hcontra
      cases hsym : relocateSymbols goSymbols
          (layoutVirtualSections sections (pEHeaderSize 3) alignment) with
      | error e =>
        rw [hsym] at hcontra
        cases hcontra
      | ok symbs =>
        rw [hsym] at hcontra
        simp only [] at hcontra
        cases hrel : relocateAddresses machine sections
            (layoutVirtualSections sections (pEHeaderSize 3) alignment) symbs with
        | error e =>
          rw [hrel] at hcontra
          cases hcontra
        | ok relocs =>
          rw [hrel] at hcontra
          simp only [] at hcontra
          rw [if_pos (by rw [relocateSymbols_no_start hsym hno]; simp)] at hcontra
          cases hcontra
    · rw [if_pos (by simp [hm])] at hcontra
      cases hcontra
  refine ⟨?_, ?_⟩
  · intro machine sections goSymbols mods alignment hno
    refine ⟨hnoOk machine sections goSymbols mods alignment hno, ?_⟩
    intro emit
    unfold writtenBytes
    cases hni : newImage machine sections goSymbols mods alignment with
    | error e => rfl
    | ok img => exact absurd hni (hnoOk machine sections goSymbols mods alignment hno img)
  · intro sections goSymbols mods alignment symbs relocs hno hsym hrel
    unfold newImage
    rw [if_neg (by simp)]
    simp only []
    rw [hsym]
    simp only []
    rw [hrel]
    simp only []
    rw [if_pos (by rw [relocateSymbols_no_start hsym hno]; simp)]

/-- Sections of the witness ELF: a null section and an allocatable,
executable `.text` (`PROGBITS`, flags `ALLOC | EXECINSTR`). -/
def demoNullSection : ElfSection :=
  { name := "", typ := 0, flags := 0, addralign := 0, size := 0, entsize := 0, info := 0,
    data := [] }

def demoTextSection : ElfSection :=
  { name := ".text", typ := 1, flags := 6, addralign := 4, size := 8, entsize := 0, info := 0,
    data := [72, 199, 192, 0, 0, 0, 0, 195] }

/-- Witness for C8: a well-formed ELF whose only symbol is `main`
(defined in `.text`) fails image construction with `NoEntrypoint`. -/
theorem no_entrypoint_fails_and_writes_nothing_witness :
    newImage EM_X86_64 [demoNullSection, demoTextSection]
      [{ name := "main", sectionIdx := 1, value := 0 }] [] 4096 = .error .noEntrypoint := by
  refine no_entrypoint_fails_and_writes_nothing.2 [demoNullSection, demoTextSection]
    [{ name := "main", sectionIdx := 1, value := 0 }] [] 4096 _ _ ?_ rfl rfl
  intro s hs
  rcases List.mem_singleton.mp hs with rfl
  decide

/-! ### Address lower bounds in the planner (for claim C6) -/

theorem u64_le (n : Nat) : u64 n ≤ n := Nat.mod_le n U64

theorem u64_eq_of_lt {n : Nat} (h : n < U64) : u64 n = n := Nat.mod_eq_of_lt h

theorem alignAddress_le (addr a : Nat) : alignAddress addr a ≤ addr + a := by
  unfold alignAddress
  by_cases ha : a = 0
  · simp [ha]
  · rw [if_neg ha]
    calc u64 (addr + a - 1) / a * a ≤ u64 (addr + a - 1) := Nat.div_mul_le_self _ _
    _ ≤ addr + a - 1 := u64_le _
    _ ≤ addr + a := by omega

theorem alignAddress_ge {addr a : Nat} (h : addr + a ≤ U64) : addr ≤ alignAddress addr a := by
  unfold alignAddress
  by_cases ha : a = 0
  · simp [ha]
  · rw [if_neg ha]
    have hlt : addr + a - 1 < U64 := by
      have : 0 < U64 := by decide
      omega
    rw [u64_eq_of_lt hlt]
    have hpos : 0 < a := Nat.pos_of_ne_zero ha
    have hdm := Nat.div_add_mod (addr + a - 1) a
    have hmod := Nat.mod_lt (addr + a - 1) hpos
    have hmul : (addr + a - 1) / a * a = a * ((addr + a - 1) / a) := Nat.mul_comm ..
    omega

/-- The address budget one section can consume during placement. -/
def sumCost (l : List ElfSection) : Nat := (l.map (fun s => s.addralign + s.size)).sum

theorem sumCost_nil : sumCost [] = 0 := rfl

theorem sumCost_cons (s : ElfSection) (l : List ElfSection) :
    sumCost (s :: l) = s.addralign + s.size + sumCost l := by
  simp [sumCost]

theorem sumCost_append (l1 l2 : List ElfSection) :
    sumCost (l1 ++ l2) = sumCost l1 + sumCost l2 := by
  simp [sumCost]

theorem placeReal_lb (l : List ElfSection) :
    ∀ addr, addr + sumCost l < U64 →
      addr ≤ (placeReal addr l).2 ∧ (placeReal addr l).2 ≤ addr + sumCost l ∧
      ∀ s ∈ (placeReal addr l).1, addr ≤ s.addrInFile := by
  induction l with
  | nil =>
    intro addr _
    refine ⟨Nat.le_refl _, by simp [placeReal, sumCost], ?_⟩
    intro s hs
    simp [placeReal] at hs
  | cons s rest ih =>
    intro addr hbound
    rw [sumCost_cons] at hbound
    have h1le : (if 0 < s.addralign then alignAddress addr s.addralign else addr)
        ≤ addr + s.addralign := by
      by_cases ha : 0 < s.addralign
      · rw [if_pos ha]
        exact alignAddress_le addr s.addralign
      · rw [if_neg ha]
        omega
    have h1ge : addr ≤ (if 0 < s.addralign then alignAddress addr s.addralign else addr) := by
      by_cases ha : 0 < s.addralign
      · rw [if_pos ha]
        exact alignAddress_ge (by omega)
      · rw [if_neg ha]
    set addr1 := if 0 < s.addralign then alignAddress addr s.addralign else addr with haddr1
    have hnext : u64 (addr1 + s.size) = addr1 + s.size :=
      u64_eq_of_lt (by omega)
    have hrec := ih (u64 (addr1 + s.size)) (by rw [hnext]; omega)
    simp only [placeReal, ← haddr1]
    refine ⟨?_, ?_, ?_⟩
    · calc addr ≤ addr1 := h1ge
      _ ≤ u64 (addr1 + s.size) := by rw [hnext]; omega
      _ ≤ (placeReal (u64 (addr1 + s.size)) rest).2 := hrec.1
    · calc (placeReal (u64 (addr1 + s.size)) rest).2
          ≤ u64 (addr1 + s.size) + sumCost rest := hrec.2.1
      _ ≤ addr + (s.addralign + s.size + sumCost rest) := by rw [hnext]; omega
    · intro t ht
      rcases List.mem_cons.mp ht with rfl | ht
      · exact h1ge
      · calc addr ≤ u64 (addr1 + s.size) := by rw [hnext]; omega
        _ ≤ t.addrInFile := hrec.2.2 t ht

theorem createVirtualSection_lb (addr : Nat) (source : List ElfSection) (alignment : Nat)
    (kind : VirtualSectionType)
    (hbound : addr + 2 * alignment + sumCost source < U64) :
    addr ≤ (createVirtualSection addr source alignment kind).2 ∧
    (createVirtualSection addr source alignment kind).2
      ≤ addr + 2 * alignment + sumCost source ∧
    ∀ s ∈ (createVirtualSection addr source alignment kind).1.realSections,
      addr ≤ s.addrInFile := by
  have h0ge : addr ≤ alignAddress addr alignment := alignAddress_ge (by omega)
  have h0le : alignAddress addr alignment ≤ addr + alignment := alignAddress_le ..
  have hplace := placeReal_lb source (alignAddress addr alignment) (by omega)
  have h2ge : (placeReal (alignAddress addr alignment) source).2
      ≤ alignAddress (placeReal (alignAddress addr alignment) source).2 alignment := by
    refine alignAddress_ge ?_
    have := hplace.2.1
    omega
  have h2le : alignAddress (placeReal (alignAddress addr alignment) source).2 alignment
      ≤ (placeReal (alignAddress addr alignment) source).2 + alignment :=
    alignAddress_le ..
  simp only [createVirtualSection]
  refine ⟨?_, ?_, ?_⟩
  · have := hplace.1
    omega
  · have := hplace.2.1
    omega
  · intro s hs
    have := hplace.2.2 s hs
    omega

theorem sumCost_buckets_le (l : List ElfSection) :
    sumCost (l.filter keepText) + sumCost (l.filter keepData) + sumCost (l.filter keepBss)
      ≤ sumCost l := by
  induction l with
  | nil => simp [sumCost]
  | cons s rest ih =>
    rw [sumCost_cons]
    have hex : ¬(keepText s = true ∧ keepData s = true) ∧
        ¬(keepText s = true ∧ keepBss s = true) ∧
        ¬(keepData s = true ∧ keepBss s = true) := by
      unfold keepText keepData keepBss
      cases hasExecInstr s <;> cases hasAlloc s <;> cases hd : decide (s.typ = SHT_NOBITS) <;>
        simp [hd]
    cases h1 : keepText s <;> cases h2 : keepData s <;> cases h3 : keepBss s
    · simp only [List.filter_cons, h1, h2, h3]
      simp only [Bool.false_eq_true, if_false]
      omega
    · simp only [List.filter_cons, h1, h2, h3]
      simp only [Bool.false_eq_true, if_false, if_true, sumCost_cons]
      omega
    · simp only [List.filter_cons, h1, h2, h3]
      simp only [Bool.false_eq_true, if_false, if_true, sumCost_cons]
      omega
    · exact absurd ⟨h2, h3⟩ hex.2.2
    · simp only [List.filter_cons, h1, h2, h3]
      simp only [Bool.false_eq_true, if_false, if_true, sumCost_cons]
      omega
    · exact absurd ⟨h1, h3⟩ hex.2.1
    · exact absurd ⟨h1, h2⟩ hex.1
    · exact absurd ⟨h1, h2⟩ hex.1

/-- The overflow-freedom budget of one whole layout: header, the four
page alignments (start and end of each of the two virtual sections), and
every section's own alignment-plus-size cost fit below `2^64`.  Every
actually linkable ELF satisfies this. -/
def layoutNoOverflow (sections : List ElfSection) (headerSize alignment : Nat) : Prop :=
  headerSize + 4 * alignment + sumCost (indexedSections sections) < U64

/-- Under the overflow-freedom budget, every real section the planner
keeps is placed at or after the header. -/
theorem layout_addrInFile_ge (sections : List ElfSection) (headerSize alignment : Nat)
    (h : layoutNoOverflow sections headerSize alignment) :
    ∀ v ∈ layoutVirtualSections sections headerSize alignment,
      ∀ s ∈ v.realSections, headerSize ≤ s.addrInFile := by
  unfold layoutNoOverflow at h
  have hbuckets := sumCost_buckets_le (indexedSections sections)
  intro v hv s hs
  simp only [layoutVirtualSections, sectionBuckets_eq_filters] at hv
  have htext := createVirtualSection_lb headerSize
    ((indexedSections sections).filter keepText) alignment .text (by omega)
  have hdata := createVirtualSection_lb
    (createVirtualSection headerSize ((indexedSections sections).filter keepText)
      alignment .text).2
    ((indexedSections sections).filter keepData ++ (indexedSections sections).filter keepBss)
    alignment .data
    (by
      rw [sumCost_append]
      have := htext.2.1
      omega)
  rcases List.mem_pair.mp hv with rfl | rfl
  · exact htext.2.2 s hs
  · have := hdata.2.2 s hs
    have := htext.1
    omega

/-! ### The bss-start scan, and claim C6 -/

theorem allRealSections_cons (v : VirtualSection) (rest : List VirtualSection) :
    allRealSections (v :: rest) = v.realSections ++ allRealSections rest := rfl

theorem mem_allRealSections {vss : List VirtualSection} {s : ElfSection} :
    s ∈ allRealSections vss ↔ ∃ v ∈ vss, s ∈ v.realSections := by
  induction vss with
  | nil => simp [allRealSections]
  | cons v rest ih =>
    rw [allRealSections_cons]
    simp only [List.mem_append, ih, List.mem_cons]
    constructor
    · rintro (h | ⟨v', hv', hs⟩)
      · exact ⟨v, Or.inl rfl, h⟩
      · exact ⟨v', Or.inr hv', hs⟩
    · rintro ⟨v', hv' | hv', hs⟩
      · subst hv'
        exact Or.inl hs
      · exact Or.inr ⟨v', hv', hs⟩

theorem scanBss_append (b : Nat) (l1 l2 : List ElfSection) :
    scanBss (scanBss b l1) l2 = scanBss b (l1 ++ l2) := by
  simp [scanBss, List.foldl_append]

theorem bssStartOf_eq_scan (vss : List VirtualSection) :
    bssStartOf vss = scanBss 0 (allRealSections vss) := by
  unfold bssStartOf
  suffices h : ∀ b, vss.foldl (fun b v => scanBss b v.realSections) b =
      scanBss b (allRealSections vss) from h 0
  induction vss with
  | nil =>
    intro b
    rfl
  | cons v rest ih =>
    intro b
    rw [allRealSections_cons, List.foldl_cons, ih, scanBss_append]

theorem scanBss_of_nonzero {b : Nat} (hb : ¬ b = 0) (ss : List ElfSection) :
    scanBss b ss = b := by
  induction ss with
  | nil => rfl
  | cons s rest ih =>
    show List.foldl _ (if s.typ = SHT_NOBITS ∧ b = 0 then s.addrInFile else b) rest = b
    rw [if_neg (by tauto)]
    exact ih

theorem scanBss_zero_eq (ss : List ElfSection)
    (hpos : ∀ s ∈ ss, s.typ = SHT_NOBITS → ¬ s.addrInFile = 0) :
    scanBss 0 ss =
      ((ss.find? (fun s => s.typ = SHT_NOBITS)).map (fun s => s.addrInFile)).getD 0 := by
  induction ss with
  | nil => rfl
  | cons s rest ih =>
    by_cases ht : s.typ = SHT_NOBITS
    · have haddr : ¬ s.addrInFile = 0 := hpos s (List.mem_cons_self ..) ht
      show List.foldl _ (if s.typ = SHT_NOBITS ∧ (0 : Nat) = 0 then s.addrInFile else 0)
        rest = _
      rw [if_pos ⟨ht, rfl⟩]
      have hscan : scanBss s.addrInFile rest = s.addrInFile := scanBss_of_nonzero haddr rest
      unfold scanBss at hscan
      rw [hscan, List.find?_cons_of_pos _ (by simp [ht])]
      rfl
    · show List.foldl _ (if s.typ = SHT_NOBITS ∧ (0 : Nat) = 0 then s.addrInFile else 0)
        rest = _
      rw [if_neg (by tauto)]
      have := ih (fun t htm => hpos t (List.mem_cons_of_mem _ htm))
      unfold scanBss at this
      rw [this, List.find?_cons_of_neg _ (by simp [ht])]

/-- The first NOBITS real section kept by the planner, in layout
order. -/
def firstKeptNobits (vss : List VirtualSection) : Option ElfSection :=
  (allRealSections vss).find? (fun s => s.typ = SHT_NOBITS)

theorem bssStartOf_of_first {vss : List VirtualSection} {s : ElfSection}
    (hpos : ∀ t ∈ allRealSections vss, t.typ = SHT_NOBITS → ¬ t.addrInFile = 0)
    (hfind : firstKeptNobits vss = some s) :
    bssStartOf vss = s.addrInFile := by
  rw [bssStartOf_eq_scan, scanBss_zero_eq _ hpos]
  unfold firstKeptNobits at hfind
  rw [hfind]
  rfl

theorem bssStartOf_of_none {vss : List VirtualSection}
    (hfind : firstKeptNobits vss = none) : bssStartOf vss = 0 := by
  unfold firstKeptNobits at hfind
  rw [bssStartOf_eq_scan, scanBss_zero_eq _ ?_, hfind]
  · rfl
  · intro t htm ht
    have := List.find?_eq_none.mp hfind t htm
    simp [ht] at this

theorem processSymbols_ok_get {f : ElfSymbol → Except GrubError ElfSymbol}
    {l out : List ElfSymbol} (h : processSymbols f l = .ok out) :
    ∀ (i : Nat) (t : ElfSymbol), l.get? i = some t →
      ∃ u, out.get? i = some u ∧ f t = .ok u := by
  have hf := processSymbols_ok_forall₂ h
  have hget := List.forall₂_iff_get.mp hf
  intro i t ht
  obtain ⟨hi, htv⟩ := List.get?_eq_some.mp ht
  have hio : i < out.length := hget.1 ▸ hi
  refine ⟨out.get ⟨i, hio⟩, List.get?_eq_get hio, ?_⟩
  have := hget.2 i hi hio
  rw [htv] at this
  exact this

theorem processSymbols_error_first {f : ElfSymbol → Except GrubError ElfSymbol}
    {e : GrubError} :
    ∀ (l : List ElfSymbol) (i : Nat) (t : ElfSymbol), l.get? i = some t → f t = .error e →
      (∀ j, j < i → ∀ u, l.get? j = some u → ∃ s', f u = .ok s') →
      processSymbols f l = .error e := by
  intro l
  induction l with
  | nil =>
    intro i t ht
    cases ht
  | cons a rest ih =>
    intro i t ht hferr hprev
    cases i with
    | zero =>
      simp only [List.get?_cons_zero] at ht
      injection ht with ht'
      subst ht'
      simp only [processSymbols, hferr]
    | succ j =>
      obtain ⟨s', hs'⟩ := hprev 0 (Nat.succ_pos j) a rfl
      have hrec := ih j t ht hferr (fun j' hj' u hu =>
        hprev (j' + 1) (by omega) u hu)
      simp only [processSymbols, hs', hrec]

/-- C6: for every image construction (header size 4096, any alignment)
whose symbol table contains an undefined `__bss_start` and whose address
arithmetic does not overflow: when the planner keeps at least one NOBITS
section, the relocated `__bss_start` receives the `addrInFile` of the
first kept NOBITS section in layout order; when no NOBITS section is
kept, symbol relocation can never succeed, and fails exactly with
`BSSSymbolButNoBSS` once the symbols before `__bss_start` process
cleanly; and an ELF without NOBITS sections that never references
`__bss_start` still constructs successfully. -/
theorem bss_start_resolution :
    (∀ (sections : List ElfSection) (alignment : Nat) (goSymbols out : List ElfSymbol)
      (i v : Nat) (s : ElfSection),
      layoutNoOverflow sections (pEHeaderSize 3) alignment →
      goSymbols.get? i = some { name := symbBssStart, sectionIdx := SHN_UNDEF, value := v } →
      firstKeptNobits (layoutVirtualSections sections (pEHeaderSize 3) alignment) = some s →
      relocateSymbols goSymbols (layoutVirtualSections sections (pEHeaderSize 3) alignment)
        = .ok out →
      out.get? (i + 1) = some ⟨symbBssStart, SHN_UNDEF, s.addrInFile⟩) ∧
    (∀ (sections : List ElfSection) (alignment : Nat) (goSymbols : List ElfSymbol)
      (i v : Nat),
      goSymbols.get? i = some { name := symbBssStart, sectionIdx := SHN_UNDEF, value := v } →
      firstKeptNobits (layoutVirtualSections sections (pEHeaderSize 3) alignment) = none →
      (∀ out, ¬ relocateSymbols goSymbols
          (layoutVirtualSections sections (pEHeaderSize 3) alignment) = .ok out) ∧
      ((∀ j, j < i → ∀ u, goSymbols.get? j = some u →
          ∃ s', relocateSymbol
            (bssStartOf (layoutVirtualSections sections (pEHeaderSize 3) alignment))
            (endOf (layoutVirtualSections sections (pEHeaderSize 3) alignment))
            (lookupSectionByIndex
              (layoutVirtualSections sections (pEHeaderSize 3) alignment)) u = .ok s') →
        relocateSymbols goSymbols (layoutVirtualSections sections (pEHeaderSize 3) alignment)
          = .error .bssSymbolButNoBSS)) ∧
    (∃ img, newImage EM_X86_64 [demoNullSection, demoTextSection]
      [{ name := symbStart, sectionIdx := 1, value := 0 }] [] 4096 = .ok img) := by
  refine ⟨?_, ?_, ?_⟩
  · intro sections alignment goSymbols out i v s hnoof hsym hfind hok
    have hpos : ∀ t ∈ allRealSections
        (layoutVirtualSections sections (pEHeaderSize 3) alignment),
        t.typ = SHT_NOBITS → ¬ t.addrInFile = 0 := by
      intro t htm _
      obtain ⟨v', hv', hts⟩ := mem_allRealSections.mp htm
      have := layout_addrInFile_ge sections (pEHeaderSize 3) alignment hnoof v' hv' t hts
      have h4096 : pEHeaderSize 3 = 4096 := rfl
      omega
    have hbss := bssStartOf_of_first hpos hfind
    have hsNobits : s.typ = SHT_NOBITS := by
      have := List.find?_some hfind
      simpa using this
    have hsMem : s ∈ allRealSections (layoutVirtualSections sections (pEHeaderSize 3)
        alignment) := List.mem_of_find?_eq_some hfind
    have hsAddr : ¬ s.addrInFile = 0 := hpos s hsMem hsNobits
    unfold relocateSymbols at hok
    cases hp : processSymbols
        (relocateSymbol (bssStartOf (layoutVirtualSections sections (pEHeaderSize 3)
          alignment)) (endOf (layoutVirtualSections sections (pEHeaderSize 3) alignment))
          (lookupSectionByIndex (layoutVirtualSections sections (pEHeaderSize 3) alignment)))
        goSymbols with
    | error e =>
      rw [hp] at hok
      cases hok
    | ok rest =>
      rw [hp] at hok
      injection hok with hok'
      subst hok'
      obtain ⟨u, hu, hfu⟩ := processSymbols_ok_get hp i _ hsym
      have hcompute : relocateSymbol
          (bssStartOf (layoutVirtualSections sections (pEHeaderSize 3) alignment))
          (endOf (layoutVirtualSections sections (pEHeaderSize 3) alignment))
          (lookupSectionByIndex (layoutVirtualSections sections (pEHeaderSize 3) alignment))
          { name := symbBssStart, sectionIdx := SHN_UNDEF, value := v } =
          .ok { name := symbBssStart, sectionIdx := SHN_UNDEF, value := s.addrInFile } := by
        unfold relocateSymbol
        rw [if_pos rfl, if_pos rfl, hbss, if_neg hsAddr]
      rw [hcompute] at hfu
      injection hfu with hfu'
      subst hfu'
      simpa using hu
  · intro sections alignment goSymbols i v hsym hfind
    have hbss := bssStartOf_of_none hfind
    have hcompute : relocateSymbol
        (bssStartOf (layoutVirtualSections sections (pEHeaderSize 3) alignment))
        (endOf (layoutVirtualSections sections (pEHeaderSize 3) alignment))
        (lookupSectionByIndex (layoutVirtualSections sections (pEHeaderSize 3) alignment))
        { name := symbBssStart, sectionIdx := SHN_UNDEF, value := v } =
        .error .bssSymbolButNoBSS := by
      unfold relocateSymbol
      rw [if_pos rfl, if_pos rfl, hbss, if_pos rfl]
    constructor
    · intro out hok
      unfold relocateSymbols at hok
      cases hp : processSymbols
          (relocateSymbol (bssStartOf (layoutVirtualSections sections (pEHeaderSize 3)
            alignment)) (endOf (layoutVirtualSections sections (pEHeaderSize 3) alignment))
            (lookupSectionByIndex (layoutVirtualSections sections (pEHeaderSize 3)
              alignment))) goSymbols with
      | error e =>
        rw [hp] at hok
        cases hok
      | ok rest =>
        obtain ⟨u, -, hfu⟩ := processSymbols_ok_get hp i _ hsym
        rw [hcompute] at hfu
        cases hfu
    · intro hprev
      have herr := processSymbols_error_first goSymbols i _ hsym hcompute hprev
      unfold relocateSymbols
      rw [herr]
  · exact ⟨_, rfl⟩

/-- An allocatable, writable NOBITS `.bss` section for the C6
witness. -/
def demoBssSection : ElfSection :=
  { name := ".bss", typ := 8, flags := 3, addralign := 4, size := 16, entsize := 0, info := 0,
    data := [] }

def demoBssSections : List ElfSection := [demoNullSection, demoTextSection, demoBssSection]

def demoBssSymbols : List ElfSymbol :=
  [{ name := symbBssStart, sectionIdx := SHN_UNDEF, value := 0 },
   { name := symbStart, sectionIdx := 1, value := 0 }]

/-- The `.bss` section as the planner places it: index 2, at file
address 8192 (text occupies the page at 4096). -/
def demoPlacedBss : ElfSection := { demoBssSection with index := 2, addrInFile := 8192 }

/-- Witness for C6: relocating the symbols of an ELF with one NOBITS
section resolves the undefined `__bss_start` to that section's assigned
address 8192. -/
theorem bss_start_resolution_witness :
    relocateSymbols demoBssSymbols
      (layoutVirtualSections demoBssSections (pEHeaderSize 3) 4096) =
      .ok [ElfSymbol.zero, ⟨symbBssStart, SHN_UNDEF, 8192⟩, ⟨symbStart, 1, 4096⟩] ∧
    ([ElfSymbol.zero, ⟨symbBssStart, SHN_UNDEF, 8192⟩,
      ⟨symbStart, 1, 4096⟩] : List ElfSymbol).get? 1
      = some ⟨symbBssStart, SHN_UNDEF, demoPlacedBss.addrInFile⟩ := by
  have hok : relocateSymbols demoBssSymbols
      (layoutVirtualSections demoBssSections (pEHeaderSize 3) 4096) =
      .ok [ElfSymbol.zero, ⟨symbBssStart, SHN_UNDEF, 8192⟩, ⟨symbStart, 1, 4096⟩] := by rfl
  refine ⟨hok, ?_⟩
  exact bss_start_resolution.1 demoBssSections 4096 demoBssSymbols _ 0 0 demoPlacedBss
    (by unfold layoutNoOverflow; decide) (by rfl) (by rfl) hok

end Pixie
